import Mathlib

/-!
# gobardofw/translator: a shallow embedding and its verified properties

The Go package `translator` resolves a `(locale, key)` pair to a message, with a
single-hop fallback locale and `{name}` placeholder substitution.  Two backends
exist: `memTranslator` (an append-only slice of records) and `JsonDriver`
(a JSON text queried by dotted path through `gjson`).

Conventions of the embedding:

* a Go `string` is a `GoString`, the list of its characters (valid UTF-8 text,
  on which substring search by byte and by code point agree);
* a Go method with a pointer receiver that mutates the receiver becomes a
  function returning the new state;
* a Go `map[string]string` ranged over in a `for` loop becomes the list of its
  entries in the order the loop visits them; the keys of that list are
  pairwise different, the order is not determined by the language;
* the libraries `gjson` and `encoding/json` and the file system are parameters
  (`JsonLib`, `FileSystem`); `validJson` and `pathGet` give the JSON grammar and
  the lookup by a dotted path of plain names for the examples that need them.
-/

namespace translator

/-! ## Strings -/

/-- A Go `string`, as the list of its characters. -/
abbrev GoString := List Char

/-! ## In-memory backend (`translator_memory.go`) -/

/-- The Go `record` struct. -/
structure record where
  locale : GoString
  key : GoString
  message : GoString
  deriving DecidableEq, Repr

/-- The Go `memTranslator` struct. -/
structure memTranslator where
  fallback : GoString
  records : List record
  deriving DecidableEq, Repr

/-- The method `memTranslator.init`: sets the fallback and an empty slice. -/
def memTranslator.init (fallbackLocale : GoString) : memTranslator :=
  { fallback := fallbackLocale, records := [] }

/-- The constructor `NewMemoryTranslator` of `main.go`. -/
def NewMemoryTranslator (fallbackLocale : GoString) : memTranslator :=
  memTranslator.init fallbackLocale

/-- The method `memTranslator.Register`: `append(t.records, record{...})`. -/
def memTranslator.Register (t : memTranslator) (locale key message : GoString) :
    memTranslator :=
  { t with records := t.records ++ [{ locale := locale, key := key, message := message }] }

/-- The loop `for _, r := range t.records` of `Resolve`: `some r.message` when the
loop returns at the first record with `r.locale == locale && r.key == key`,
`none` when the loop runs to its end. -/
def memTranslator.scan : List record → GoString → GoString → Option GoString
  | [], _, _ => none
  | r :: rs, locale, key =>
    if r.locale = locale ∧ r.key = key then some r.message
    else memTranslator.scan rs locale key

/-- The method `memTranslator.Resolve`, with its recursive call.  The measure is
`0` on the fallback locale and `1` elsewhere. -/
def memTranslator.Resolve (t : memTranslator) (locale key : GoString) : GoString :=
  match memTranslator.scan t.records locale key with
  | some m => m
  | none =>
    if locale ≠ t.fallback then memTranslator.Resolve t t.fallback key
    else []
termination_by (if locale = t.fallback then 0 else 1)
decreasing_by simp_all

/-- The method `memTranslator.Resolve` run with a budget of `depth` nested calls:
`none` when the budget is used up before the outermost call returns. -/
def memTranslator.ResolveDepth : Nat → memTranslator → GoString → GoString → Option GoString
  | 0, _, _, _ => none
  | depth + 1, t, locale, key =>
    match memTranslator.scan t.records locale key with
    | some m => some m
    | none =>
      if locale ≠ t.fallback then memTranslator.ResolveDepth depth t t.fallback key
      else some []

/-- A sequence of `Register` calls, applied first to last. -/
def memTranslator.RegisterAll (t : memTranslator)
    (calls : List (GoString × GoString × GoString)) : memTranslator :=
  calls.foldl (fun s c => s.Register c.1 c.2.1 c.2.2) t

/-! ## Placeholder substitution (`strings.ReplaceAll` and the loop of `Translate`) -/

/-- The character `{`. -/
def lbrace : Char := Char.ofNat 123

/-- The character `}`. -/
def rbrace : Char := Char.ofNat 125

/-- The Go expression `"{" + p + "}"`. -/
def placeholder (p : GoString) : GoString := [lbrace] ++ p ++ [rbrace]

/-- The scan of `strings.Replace` for a non-empty `old`: where `old` starts, write
`new` and go on behind that occurrence; elsewhere copy one character.  `fuel`
bounds the number of steps; the length of the text is enough. -/
def replaceScan (old new : GoString) : Nat → GoString → GoString
  | 0, s => s
  | _ + 1, [] => []
  | fuel + 1, c :: cs =>
    if old.isPrefixOf (c :: cs) then
      new ++ replaceScan old new fuel ((c :: cs).drop old.length)
    else c :: replaceScan old new fuel cs

/-- The library function `strings.ReplaceAll(s, old, new)`: the occurrences of
`old`, found left to right and not overlapping, are replaced by `new`; an empty
`old` matches before every character and at the end. -/
def ReplaceAll (s old new : GoString) : GoString :=
  if old = [] then new ++ s.flatMap (fun c => c :: new)
  else replaceScan old new s.length s

/-- The loop `for p, v := range placeholders { message = strings.ReplaceAll(message,
"{"+p+"}", v) }` shared by `Translate` and `TranslateStruct`; `placeholders` lists the
entries of the map in the order the loop visits them. -/
def substitute (message : GoString) (placeholders : List (GoString × GoString)) :
    GoString :=
  placeholders.foldl (fun msg pv => ReplaceAll msg (placeholder pv.1) pv.2) message

/-! ## The `Translatable` hook (`translatable.go`) -/

/-- The Go interface `Translatable`, with its one method. -/
structure Translatable where
  GetTranslation : GoString → GoString → GoString

/-- A Go value of type `interface{}`, as far as the type assertion
`s.(Translatable)` tells values apart. -/
inductive Subject where
  | translatable (v : Translatable)
  | other

/-- The function `resolveTranslatable`; `none` is Go's `nil`. -/
def resolveTranslatable (s : Subject) : Option Translatable :=
  match s with
  | Subject.translatable v => some v
  | Subject.other => none

/-- The method `memTranslator.ResolveStruct`. -/
def memTranslator.ResolveStruct (t : memTranslator) (s : Subject)
    (locale key : GoString) : GoString :=
  match resolveTranslatable s with
  | some tr =>
    let tr := tr.GetTranslation locale key
    if tr ≠ [] then tr else t.Resolve locale key
  | none => t.Resolve locale key

/-- The method `memTranslator.Translate`. -/
def memTranslator.Translate (t : memTranslator) (locale key : GoString)
    (placeholders : List (GoString × GoString)) : GoString :=
  substitute (t.Resolve locale key) placeholders

/-- The method `memTranslator.TranslateStruct`. -/
def memTranslator.TranslateStruct (t : memTranslator) (s : Subject)
    (locale key : GoString) (placeholders : List (GoString × GoString)) : GoString :=
  substitute (t.ResolveStruct s locale key) placeholders

/-! ## File-backed backend (`translator_json.go`) -/

/-- A Go `error`, by its message. -/
structure GoError where
  message : GoString
  deriving DecidableEq, Repr

/-- The JSON libraries the driver calls.
* `Valid` is `gjson.Valid`.
* `Get json path` is `gjson.Get(json, path)`: `none` for a result whose
  `Exists()` is false (its `String()` is the empty string), `some s` for a
  result that exists and whose `String()` is `s`.
* `Reencode` is `json.Unmarshal` into a `map[string]interface{}` followed by
  `json.Marshal` of that map, as in `unwrapJson`. -/
structure JsonLib where
  Valid : GoString → Bool
  Get : GoString → GoString → Option GoString
  Reencode : GoString → Except GoError GoString

/-- One path `f` returned by `utils.FindFile(dir, ".json")` with
`filepath.Dir(f) == dir`: the path, the base name without its extension, and
what `ioutil.ReadFile` returns for it. -/
structure SourceFile where
  filePath : GoString
  fileName : GoString
  read : Except GoError GoString

/-- The file system as `Load` sees it.
* `subDirectories dir` is `utils.GetSubDirectory(dir)`.
* `jsonFiles dir locale` lists the files that the loop of `resolveFiles` does not
  skip for `path.Join(dir, locale)`, in the order of `utils.FindFile`. -/
structure FileSystem where
  subDirectories : GoString → Except GoError (List GoString)
  jsonFiles : GoString → GoString → List SourceFile

/-- The Go `JsonDriver` struct. -/
structure JsonDriver where
  fallback : GoString
  dir : GoString
  jsonData : GoString
  deriving DecidableEq, Repr

/-- The assignment `res[fileName] = content` on a Go map kept as the list of its
entries: an entry with the same key is overwritten in place, a new key is added
at the end. -/
def mapSet : List (GoString × GoString) → GoString → GoString → List (GoString × GoString)
  | [], k, v => [(k, v)]
  | (k', v') :: rest, k, v =>
    if k' = k then (k, v) :: rest else (k', v') :: mapSet rest k v

/-- The loop of the closure `resolveFiles` over the files of one directory, `res`
being the map built so far. -/
def resolveFilesLoop (js : JsonLib) :
    List SourceFile → List (GoString × GoString) → Except GoError (List (GoString × GoString))
  | [], res => Except.ok res
  | f :: rest, res =>
    match f.read with
    | Except.error err => Except.error err
    | Except.ok content =>
      if !js.Valid content then
        Except.error { message := "Invalid json for ".toList ++ f.filePath }
      else resolveFilesLoop js rest (mapSet res f.fileName content)

/-- The closure `resolveFiles` of `Load`, for the directory of one locale. -/
def resolveFiles (fs : FileSystem) (js : JsonLib) (dir locale : GoString) :
    Except GoError (List (GoString × GoString)) :=
  resolveFilesLoop js (fs.jsonFiles dir locale) []

/-- The library function `strings.TrimPrefix`. -/
def TrimPrefix (s pre : GoString) : GoString :=
  if pre.isPrefixOf s then s.drop pre.length else s

/-- The library function `strings.TrimSuffix`. -/
def TrimSuffix (s suf : GoString) : GoString :=
  if suf.isSuffixOf s then s.take (s.length - suf.length) else s

/-- The library function `strings.Join`. -/
def Join (elems : List GoString) (sep : GoString) : GoString :=
  sep.intercalate elems

/-- The closure `unwrapJson` of `Load`. -/
def unwrapJson (js : JsonLib) (jsonText : GoString) : Except GoError GoString :=
  match js.Reencode jsonText with
  | Except.error err => Except.error err
  | Except.ok jsonStr =>
    Except.ok (TrimSuffix (TrimPrefix jsonStr [lbrace]) [rbrace])

/-- The Go expression `"\"" + name + "\":" + cnt`, a member of a JSON object. -/
def member (name cnt : GoString) : GoString :=
  "\"".toList ++ name ++ "\":".toList ++ cnt

/-- The body of the loop `for _, locale := range locales` of `Load` for one
locale: the fragments it appends to `contents`, or the error it returns. -/
def localeFragments (fs : FileSystem) (js : JsonLib) (dir locale : GoString) :
    Except GoError (List GoString) :=
  match resolveFiles fs js dir locale with
  | Except.error err => Except.error err
  | Except.ok files =>
    match files with
    | [(_, cnt)] =>
      if locale = [] then
        match unwrapJson js cnt with
        | Except.error err => Except.error err
        | Except.ok unwrappedJson => Except.ok [unwrappedJson]
      else Except.ok [member locale cnt]
    | _ =>
      if locale = [] then Except.ok (files.map (fun fc => member fc.1 fc.2))
      else
        let subContent := files.map (fun fc => member fc.1 fc.2)
        Except.ok
          ["\"".toList ++ locale ++ "\":".toList ++ [lbrace] ++ Join subContent ",".toList
            ++ [rbrace]]

/-- The loop `for _, locale := range locales` of `Load`, `contents` being the
slice built so far. -/
def loadLoop (fs : FileSystem) (js : JsonLib) (dir : GoString) :
    List GoString → List GoString → Except GoError (List GoString)
  | [], contents => Except.ok contents
  | locale :: rest, contents =>
    match localeFragments fs js dir locale with
    | Except.error err => Except.error err
    | Except.ok fragments => loadLoop fs js dir rest (contents ++ fragments)

/-- The method `JsonDriver.Load`: the driver after the call and the error
returned (`none` is Go's `nil`). -/
def JsonDriver.Load (fs : FileSystem) (js : JsonLib) (t : JsonDriver) :
    JsonDriver × Option GoError :=
  match fs.subDirectories t.dir with
  | Except.error err => (t, some err)
  | Except.ok locales =>
    match loadLoop fs js t.dir (locales ++ [[]]) [] with
    | Except.error err => (t, some err)
    | Except.ok contents =>
      ({ t with jsonData := [lbrace] ++ Join contents ",".toList ++ [rbrace] }, none)

/-- The method `JsonDriver.init`, on a driver `t`. -/
def JsonDriver.init (fs : FileSystem) (js : JsonLib) (t : JsonDriver)
    (fallbackLocale dir : GoString) : JsonDriver × Option GoError :=
  JsonDriver.Load fs js { t with fallback := fallbackLocale, dir := dir }

/-- The constructor `NewJsonTranslator` of `main.go`: the translator returned
(`none` is Go's `nil`) and the error. -/
def NewJsonTranslator (fs : FileSystem) (js : JsonLib) (fallbackLocale dir : GoString) :
    Option JsonDriver × Option GoError :=
  match JsonDriver.init fs js { fallback := [], dir := [], jsonData := [] } fallbackLocale dir with
  | (_, some err) => (none, some err)
  | (t, none) => (some t, none)

/-- The method `JsonDriver.Register`: its body is empty. -/
def JsonDriver.Register (t : JsonDriver) (_locale _key _message : GoString) : JsonDriver :=
  t

/-- The method `JsonDriver.Resolve` together with the paths it passes to
`gjson.Get`, in the order of the calls. -/
def JsonDriver.ResolveQueries (js : JsonLib) (t : JsonDriver) (locale key : GoString) :
    GoString × List GoString :=
  let path := locale ++ ".".toList ++ key
  match js.Get t.jsonData path with
  | some s => (s, [path])
  | none =>
    let path' := t.fallback ++ ".".toList ++ key
    match js.Get t.jsonData path' with
    | some s => (s, [path, path'])
    | none => ([], [path, path'])

/-- The method `JsonDriver.Resolve`. -/
def JsonDriver.Resolve (js : JsonLib) (t : JsonDriver) (locale key : GoString) : GoString :=
  (t.ResolveQueries js locale key).1

/-- The method `JsonDriver.ResolveStruct`. -/
def JsonDriver.ResolveStruct (js : JsonLib) (t : JsonDriver) (s : Subject)
    (locale key : GoString) : GoString :=
  match resolveTranslatable s with
  | some tr =>
    let tr := tr.GetTranslation locale key
    if tr ≠ [] then tr else t.Resolve js locale key
  | none => t.Resolve js locale key

/-- The method `JsonDriver.Translate`. -/
def JsonDriver.Translate (js : JsonLib) (t : JsonDriver) (locale key : GoString)
    (placeholders : List (GoString × GoString)) : GoString :=
  substitute (t.Resolve js locale key) placeholders

/-- The method `JsonDriver.TranslateStruct`. -/
def JsonDriver.TranslateStruct (js : JsonLib) (t : JsonDriver) (s : Subject)
    (locale key : GoString) (placeholders : List (GoString × GoString)) : GoString :=
  substitute (t.ResolveStruct js s locale key) placeholders

/-! ## Specification-side notions for substitution -/

/-- Following the spec's words, "`s` with every occurrence of the substring `old`
replaced by `new`": a text without an occurrence of `old` is left as it is;
otherwise the text is `a ++ old ++ rest` where the shown occurrence is the
leftmost one (`old` does not occur in `a ++ old` before its end), and the result
is `a ++ new` followed by `rest` with every occurrence replaced. -/
inductive ReplacedEvery (old new : GoString) : GoString → GoString → Prop
  | done (s : GoString) : ¬ old <:+: s → ReplacedEvery old new s s
  | step (a rest r : GoString) : ¬ old <:+: a ++ old.dropLast →
      ReplacedEvery old new rest r → ReplacedEvery old new (a ++ old ++ rest) (a ++ new ++ r)

/-- A text without `{` and without `}`. -/
def braceFree (s : GoString) : Prop := ∀ c ∈ s, c ≠ lbrace ∧ c ≠ rbrace

instance braceFree.decidable (s : GoString) : Decidable (braceFree s) := by
  unfold braceFree
  infer_instance

/-- The scan behind `flat`: `inside` tells whether a `{` was read and no `}` since. -/
def flatFrom : Bool → GoString → Bool
  | _, [] => true
  | inside, c :: cs =>
    if c = lbrace then !inside && flatFrom true cs
    else if c = rbrace then flatFrom false cs
    else flatFrom inside cs

/-- A template whose braces are not nested: between two `{` there is a `}`. -/
def flat (m : GoString) : Bool := flatFrom false m

/-- The entries of a placeholder map whose names and values are free of braces. -/
def plainEntries (placeholders : List (GoString × GoString)) : Prop :=
  ∀ e ∈ placeholders, braceFree e.1 ∧ braceFree e.2

instance plainEntries.decidable (placeholders : List (GoString × GoString)) :
    Decidable (plainEntries placeholders) := by
  unfold plainEntries
  infer_instance

/-- The number of occurrences of `pat` in `s`: the positions of `s` at which `pat`
starts. -/
def occurrences (pat : GoString) : GoString → Nat
  | [] => if pat.isPrefixOf [] then 1 else 0
  | c :: cs => (if pat.isPrefixOf (c :: cs) then 1 else 0) + occurrences pat cs

/-! ## Valid JSON texts -/

/-- The insignificant whitespace of JSON: space, tab, line feed, carriage return. -/
def isWhitespace (c : Char) : Bool := c = ' ' || c = '\t' || c = '\n' || c = '\r'

/-- Drops the leading whitespace. -/
def skipWhitespace : GoString → GoString
  | [] => []
  | c :: cs => if isWhitespace c then skipWhitespace cs else c :: cs

/-- A decimal digit. -/
def isDigit (c : Char) : Bool := decide ('0' ≤ c) && decide (c ≤ '9')

/-- A hexadecimal digit. -/
def isHexDigit (c : Char) : Bool :=
  isDigit c || (decide ('a' ≤ c) && decide (c ≤ 'f')) || (decide ('A' ≤ c) && decide (c ≤ 'F'))

/-- Drops the leading digits. -/
def skipDigits : GoString → GoString
  | [] => []
  | c :: cs => if isDigit c then skipDigits cs else c :: cs

/-- Reads a JSON string behind its opening quote and returns the text behind the
closing quote: no control character, a backslash only in an escape. -/
def scanString : GoString → Option GoString
  | [] => none
  | c :: cs =>
    if c = '"' then some cs
    else if c = '\\' then
      match cs with
      | [] => none
      | e :: cs' =>
        if e = 'u' then
          match cs' with
          | h1 :: h2 :: h3 :: h4 :: cs'' =>
            if isHexDigit h1 && isHexDigit h2 && isHexDigit h3 && isHexDigit h4 then
              scanString cs''
            else none
          | _ => none
        else if e ∈ ['"', '\\', '/', 'b', 'f', 'n', 'r', 't'] then scanString cs'
        else none
    else if c.toNat < 32 then none
    else scanString cs

/-- Reads the optional exponent of a JSON number. -/
def scanExp (s : GoString) : Option GoString :=
  match s with
  | [] => some []
  | e :: r =>
    if e = 'e' ∨ e = 'E' then
      let r' := match r with
        | '+' :: x => x
        | '-' :: x => x
        | _ => r
      match r' with
      | [] => none
      | d :: r'' => if isDigit d then some (skipDigits r'') else none
    else some s

/-- Reads the optional fraction and exponent of a JSON number. -/
def scanFrac (s : GoString) : Option GoString :=
  match s with
  | '.' :: r =>
    match r with
    | [] => none
    | d :: r' => if isDigit d then scanExp (skipDigits r') else none
  | _ => scanExp s

/-- Reads a JSON number: an optional minus, `0` or digits that start with `1`-`9`,
an optional fraction, an optional exponent. -/
def scanNumber (s : GoString) : Option GoString :=
  let s' := match s with
    | '-' :: r => r
    | _ => s
  match s' with
  | [] => none
  | d :: r =>
    if d = '0' then scanFrac r
    else if isDigit d then scanFrac (skipDigits r)
    else none

/-- Reads one of the names `true`, `false`, `null`. -/
def scanLiteral (lit s : GoString) : Option GoString :=
  if lit.isPrefixOf s then some (s.drop lit.length) else none

mutual
/-- Reads a JSON value, with whitespace before it, and returns the text behind it;
`fuel` bounds the nested calls. -/
def scanValue : Nat → GoString → Option GoString
  | 0, _ => none
  | fuel + 1, s =>
    match skipWhitespace s with
    | [] => none
    | c :: cs =>
      if c = lbrace then scanObject fuel cs
      else if c = '[' then scanArray fuel cs
      else if c = '"' then scanString cs
      else if c = '-' ∨ isDigit c then scanNumber (c :: cs)
      else if c = 't' then scanLiteral "true".toList (c :: cs)
      else if c = 'f' then scanLiteral "false".toList (c :: cs)
      else if c = 'n' then scanLiteral "null".toList (c :: cs)
      else none
/-- Reads a JSON object behind its `{`. -/
def scanObject : Nat → GoString → Option GoString
  | 0, _ => none
  | fuel + 1, s =>
    match skipWhitespace s with
    | [] => none
    | c :: cs =>
      if c = rbrace then some cs
      else if c = '"' then scanMembers fuel cs
      else none
/-- Reads the members of a JSON object behind the opening quote of a name, up to
and with the closing `}`; behind a comma another member has to follow. -/
def scanMembers : Nat → GoString → Option GoString
  | 0, _ => none
  | fuel + 1, s =>
    match scanString s with
    | none => none
    | some r =>
      match skipWhitespace r with
      | [] => none
      | c :: r1 =>
        if c = ':' then
          match scanValue fuel r1 with
          | none => none
          | some r2 =>
            match skipWhitespace r2 with
            | [] => none
            | d :: r3 =>
              if d = rbrace then some r3
              else if d = ',' then
                match skipWhitespace r3 with
                | [] => none
                | q :: r4 => if q = '"' then scanMembers fuel r4 else none
              else none
        else none
/-- Reads a JSON array behind its `[`. -/
def scanArray : Nat → GoString → Option GoString
  | 0, _ => none
  | fuel + 1, s =>
    match skipWhitespace s with
    | [] => none
    | c :: cs => if c = ']' then some cs else scanElements fuel (c :: cs)
/-- Reads the elements of a JSON array up to and with the closing `]`. -/
def scanElements : Nat → GoString → Option GoString
  | 0, _ => none
  | fuel + 1, s =>
    match scanValue fuel s with
    | none => none
    | some r =>
      match skipWhitespace r with
      | [] => none
      | d :: r' =>
        if d = ']' then some r'
        else if d = ',' then scanElements fuel r'
        else none
end

/-- A budget of nested calls that is enough to read the text `s`: a value, its
object or array and the list of its members or elements take three calls, and
each of them reads at least one character. -/
def scanFuel (s : GoString) : Nat := 3 * s.length + 3

/-- A valid JSON text by the grammar of RFC 8259, which is what `gjson.Valid`
checks: one value with whitespace around it. -/
def validJson (s : GoString) : Bool :=
  match scanValue (scanFuel s) s with
  | none => false
  | some r => (skipWhitespace r).isEmpty


/-- A directory with one locale directory `en`, whose one file holds `{"a":"Y"}`,
and with one file of its own, `default.json`, that holds the empty object `{}`. -/
def emptyRootLayout : FileSystem :=
  { subDirectories := fun _ => Except.ok ["en".toList]
    jsonFiles := fun dir locale =>
      if locale = [] then
        [{ filePath := dir ++ "/default.json".toList, fileName := "default".toList,
           read := Except.ok "\x7b\x7d".toList }]
      else
        [{ filePath := dir ++ "/".toList ++ locale ++ "/default.json".toList,
           fileName := "default".toList,
           read := Except.ok "\x7b\"a\":\"Y\"\x7d".toList }] }

/-! ## Dotted paths (`gjson.Get`) -/

/-- Splits a path at every `.`: `en.a` gives `en`, `a`; a path that starts with a
dot has the empty name as its first segment. -/
def splitPath : GoString → List GoString
  | [] => [[]]
  | c :: cs =>
    if c = '.' then [] :: splitPath cs
    else
      match splitPath cs with
      | [] => [[c]]
      | p :: ps => (c :: p) :: ps

/-- The value of a hexadecimal digit. -/
def hexValue (c : Char) : Nat :=
  if isDigit c then c.toNat - 48
  else if decide ('a' ≤ c) && decide (c ≤ 'f') then c.toNat - 87
  else c.toNat - 55

/-- The text of a JSON string without its quotes, escapes resolved (a `\u` escape
gives the character of that code unit). -/
def unescape : GoString → GoString
  | [] => []
  | c :: cs =>
    if c = '\\' then
      match cs with
      | [] => []
      | e :: cs' =>
        if e = 'u' then
          match cs' with
          | h1 :: h2 :: h3 :: h4 :: cs'' =>
            Char.ofNat (((hexValue h1 * 16 + hexValue h2) * 16 + hexValue h3) * 16 + hexValue h4)
              :: unescape cs''
          | _ => []
        else
          (if e = 'n' then '\n' else if e = 't' then '\t' else if e = 'r' then '\r'
            else if e = 'b' then Char.ofNat 8 else if e = 'f' then Char.ofNat 12 else e)
            :: unescape cs'
    else c :: unescape cs

/-- The `String()` of the `gjson.Result` for the JSON value that starts the text
`v`: the unescaped text of a string, the empty string for `null`, and the text of
the value as written for `true`, `false`, an object, an array and a number
written as an integer. -/
def renderValue (v : GoString) : Option GoString :=
  match v with
  | [] => none
  | c :: cs =>
    if c = '"' then
      match scanString cs with
      | none => none
      | some rest => some (unescape (cs.take (cs.length - rest.length - 1)))
    else
      match scanValue (scanFuel v) v with
      | none => none
      | some rest => if c = 'n' then some [] else some (v.take (v.length - rest.length))

/-- A path segment read as an array index: digits only. -/
def parseIndex (part : GoString) : Option Nat :=
  if part ≠ [] ∧ part.all isDigit then some (part.foldl (fun n c => n * 10 + (c.toNat - 48)) 0)
  else none

mutual
/-- Looks behind the `{` of an object, or behind the comma between two members, for
the member named `part`.  With no segment left the value of the member is the
result; otherwise the search goes on inside that value, and on to the next member
when nothing is found there. -/
def getMember : Nat → GoString → GoString → List GoString → Option GoString
  | 0, _, _, _ => none
  | fuel + 1, s, part, rest =>
    match skipWhitespace s with
    | [] => none
    | c :: cs =>
      if c = '"' then
        match scanString cs with
        | none => none
        | some r =>
          match skipWhitespace r with
          | [] => none
          | d :: r1 =>
            if d = ':' then
              match scanValue (scanFuel r1) (skipWhitespace r1) with
              | none => none
              | some after =>
                let found :=
                  if unescape (cs.take (cs.length - r.length - 1)) = part then
                    match rest with
                    | [] => renderValue (skipWhitespace r1)
                    | p :: ps => getValue fuel (skipWhitespace r1) p ps
                  else none
                match found with
                | some x => some x
                | none =>
                  match skipWhitespace after with
                  | [] => none
                  | e :: more => if e = ',' then getMember fuel more part rest else none
            else none
      else none
/-- Looks behind the `[` of an array, or behind the comma between two elements,
for the element that is `index` elements further on. -/
def getElement : Nat → GoString → Nat → List GoString → Option GoString
  | 0, _, _, _ => none
  | fuel + 1, s, index, rest =>
    match scanValue (scanFuel s) (skipWhitespace s) with
    | none => none
    | some after =>
      if index = 0 then
        match rest with
        | [] => renderValue (skipWhitespace s)
        | p :: ps => getValue fuel (skipWhitespace s) p ps
      else
        match skipWhitespace after with
        | [] => none
        | e :: more => if e = ',' then getElement fuel more (index - 1) rest else none
/-- Follows the path `part :: rest` into the value that starts the text `v`: into
an object by the name of a member, into an array by an index. -/
def getValue : Nat → GoString → GoString → List GoString → Option GoString
  | 0, _, _, _ => none
  | fuel + 1, v, part, rest =>
    match v with
    | [] => none
    | c :: cs =>
      if c = lbrace then getMember fuel cs part rest
      else if c = '[' then
        match parseIndex part with
        | none => none
        | some index => getElement fuel cs index rest
      else none
end

/-- The library function `gjson.Get(json, path)` for a path of plain names and
indexes separated by dots (none of the characters that `gjson` reads as a
wildcard, a query, a modifier or an escape): `none` when the result does not
exist, else its `String()`, a number being given as it is written (as `gjson` does
for a number written as an integer). -/
def pathGet (json path : GoString) : Option GoString :=
  match splitPath path with
  | [] => none
  | part :: rest => getValue (scanFuel json) (skipWhitespace json) part rest

/-- A JSON library for texts that are written the way `json.Marshal` writes them:
`Valid` is the grammar, `Get` the lookup by dotted path, and `Reencode` gives back
the text of an object, gives `null` for `null`, and fails on every other value, as
`json.Unmarshal` into a map does. -/
def plainLib : JsonLib :=
  { Valid := validJson
    Get := pathGet
    Reencode := fun s =>
      match skipWhitespace s with
      | c :: _ =>
        if c = lbrace then Except.ok s
        else if "null".toList.isPrefixOf (skipWhitespace s) then Except.ok "null".toList
        else Except.error
          { message := "json: cannot unmarshal into Go value of type map[string]interface \x7b\x7d".toList }
      | [] => Except.error { message := "unexpected end of JSON input".toList } }

/-- The layout of the round trip: root `default.json` holds `{"a":"X"}` and the
locale directory `en` has the one file `default.json` that holds `{"a":"Y"}`. -/
def roundTripLayout : FileSystem :=
  { subDirectories := fun _ => Except.ok ["en".toList]
    jsonFiles := fun dir locale =>
      if locale = [] then
        [{ filePath := dir ++ "/default.json".toList, fileName := "default".toList,
           read := Except.ok "\x7b\"a\":\"X\"\x7d".toList }]
      else
        [{ filePath := dir ++ "/".toList ++ locale ++ "/default.json".toList,
           fileName := "default".toList,
           read := Except.ok "\x7b\"a\":\"Y\"\x7d".toList }] }

/-- A root directory without subdirectories and with the two files
`greetings.json`, holding `{"hi":"Hi"}`, and `errors.json`, holding
`{"404":"Not found"}`; `errorsFirst` tells which of the two the loop over the map
of files visits first. -/
def multiFileLayout (errorsFirst : Bool) : FileSystem :=
  { subDirectories := fun _ => Except.ok []
    jsonFiles := fun dir _ =>
      if errorsFirst then
        [{ filePath := dir ++ "/errors.json".toList, fileName := "errors".toList,
           read := Except.ok "\x7b\"404\":\"Not found\"\x7d".toList },
         { filePath := dir ++ "/greetings.json".toList, fileName := "greetings".toList,
           read := Except.ok "\x7b\"hi\":\"Hi\"\x7d".toList }]
      else
        [{ filePath := dir ++ "/greetings.json".toList, fileName := "greetings".toList,
           read := Except.ok "\x7b\"hi\":\"Hi\"\x7d".toList },
         { filePath := dir ++ "/errors.json".toList, fileName := "errors".toList,
           read := Except.ok "\x7b\"404\":\"Not found\"\x7d".toList }] }

/-- A root directory without subdirectories whose one file holds `content`. -/
def rootFileLayout (content : GoString) : FileSystem :=
  { subDirectories := fun _ => Except.ok []
    jsonFiles := fun dir _ =>
      [{ filePath := dir ++ "/default.json".toList, fileName := "default".toList,
         read := Except.ok content }] }

/-- A root directory without files of its own and with the one locale directory
`locale`, whose one file holds `content`. -/
def localeFileLayout (locale content : GoString) : FileSystem :=
  { subDirectories := fun _ => Except.ok [locale]
    jsonFiles := fun dir l =>
      if l = [] then []
      else
        [{ filePath := dir ++ "/".toList ++ l ++ "/default.json".toList,
           fileName := "default".toList, read := Except.ok content }] }

/-! ## The members of the aggregate -/

/-- The text of a JSON object with the given members, each a name and the text of
its value, in their order. -/
def objectText (members : List (GoString × GoString)) : GoString :=
  [lbrace] ++ Join (members.map (fun m => member m.1 m.2)) ",".toList ++ [rbrace]

/-- What an object gives for a name: the value of its first member of that name,
an object being read from left to right. -/
def firstValue : List (GoString × GoString) → GoString → Option GoString
  | [], _ => none
  | m :: rest, name => if m.1 = name then some m.2 else firstValue rest name

/-- The value that the loop of `Load` writes behind the name of a locale directory
whose map of files is `files`: the content of its one file, or, with any other
number of files, the object of its files. -/
def localeValue (files : List (GoString × GoString)) : GoString :=
  match files with
  | [(_, cnt)] => cnt
  | _ => [lbrace] ++ Join (files.map (fun fc => member fc.1 fc.2)) ",".toList ++ [rbrace]

/-- A root directory with the two files `en.json`, holding `{"x":"R"}`, and
`fr.json`, holding `{"x":"F"}`, beside the locale directory `en`, whose one file
holds `{"x":"L"}`. -/
def shadowLayout : FileSystem :=
  { subDirectories := fun _ => Except.ok ["en".toList]
    jsonFiles := fun dir locale =>
      if locale = [] then
        [{ filePath := dir ++ "/en.json".toList, fileName := "en".toList,
           read := Except.ok "\x7b\"x\":\"R\"\x7d".toList },
         { filePath := dir ++ "/fr.json".toList, fileName := "fr".toList,
           read := Except.ok "\x7b\"x\":\"F\"\x7d".toList }]
      else
        [{ filePath := dir ++ "/".toList ++ locale ++ "/default.json".toList,
           fileName := "default".toList,
           read := Except.ok "\x7b\"x\":\"L\"\x7d".toList }] }

/-- A character of a plain name: a letter, a digit, `_` or `-`. -/
def plainChar (c : Char) : Prop :=
  (48 ≤ c.toNat ∧ c.toNat ≤ 57) ∨ (65 ≤ c.toNat ∧ c.toNat ≤ 90) ∨
    (97 ≤ c.toNat ∧ c.toNat ≤ 122) ∨ c.toNat = 95 ∨ c.toNat = 45

instance plainChar.decidable (c : Char) : Decidable (plainChar c) := by
  unfold plainChar
  infer_instance

/-- A plain name: every character is a letter, a digit, `_` or `-`, so none is a
dot, a quote, a backslash, a control character or a character that `gjson` reads
in a special way in a path. -/
def plainName (name : GoString) : Prop := ∀ c ∈ name, plainChar c

instance plainName.decidable (name : GoString) : Decidable (plainName name) := by
  unfold plainName
  infer_instance

/-- The name is read back as it is from the stored text, where it stands between
quotes, and it is one segment of a dotted path. -/
def readsAsName (name : GoString) : Prop :=
  (∀ rest : GoString, scanString (name ++ '"' :: rest) = some rest) ∧
  unescape name = name ∧
  ∀ key : GoString, splitPath (name ++ ".".toList ++ key) = name :: splitPath key

/-! ## Calls on the in-memory translator -/

/-- A call of one of the five methods of `memTranslator`, with its arguments. -/
inductive memCall where
  | Register (locale key message : GoString)
  | Resolve (locale key : GoString)
  | ResolveStruct (s : Subject) (locale key : GoString)
  | Translate (locale key : GoString) (placeholders : List (GoString × GoString))
  | TranslateStruct (s : Subject) (locale key : GoString)
      (placeholders : List (GoString × GoString))

/-- The translator after a call and the string the call returns (`Register`
returns nothing, shown as the empty string).  Only `Register` assigns to a field
of the receiver. -/
def memTranslator.call (t : memTranslator) : memCall → memTranslator × GoString
  | memCall.Register locale key message => (t.Register locale key message, [])
  | memCall.Resolve locale key => (t, t.Resolve locale key)
  | memCall.ResolveStruct s locale key => (t, t.ResolveStruct s locale key)
  | memCall.Translate locale key placeholders => (t, t.Translate locale key placeholders)
  | memCall.TranslateStruct s locale key placeholders =>
    (t, t.TranslateStruct s locale key placeholders)

/-- The translator after a sequence of calls, first to last. -/
def memTranslator.callAll (t : memTranslator) (calls : List memCall) : memTranslator :=
  calls.foldl (fun s c => (s.call c).1) t

/-! ### Lemmas on the in-memory backend -/

theorem scan_append (xs ys : List record) (locale key : GoString) :
    memTranslator.scan (xs ++ ys) locale key =
      (memTranslator.scan xs locale key).orElse
        (fun _ => memTranslator.scan ys locale key) := by
  induction xs with
  | nil => simp [memTranslator.scan]
  | cons r rs ih =>
    by_cases h : r.locale = locale ∧ r.key = key
    · simp [memTranslator.scan, h]
    · simp only [List.cons_append, memTranslator.scan, h, if_false]
      exact ih

theorem scan_eq_none_iff (rs : List record) (locale key : GoString) :
    memTranslator.scan rs locale key = none ↔
      ∀ r ∈ rs, ¬ (r.locale = locale ∧ r.key = key) := by
  induction rs with
  | nil => simp [memTranslator.scan]
  | cons r rs ih =>
    by_cases h : r.locale = locale ∧ r.key = key
    · simp [memTranslator.scan, h]
    · simp only [memTranslator.scan, h, if_false, ih, List.mem_cons, forall_eq_or_imp,
        not_false_eq_true, true_and]

theorem scan_mem (rs : List record) (locale key m : GoString)
    (h : memTranslator.scan rs locale key = some m) :
    ∃ r ∈ rs, r.locale = locale ∧ r.key = key ∧ r.message = m := by
  induction rs with
  | nil => simp [memTranslator.scan] at h
  | cons r rs ih =>
    by_cases hr : r.locale = locale ∧ r.key = key
    · simp only [memTranslator.scan, hr, and_self, if_true, Option.some.injEq] at h
      exact ⟨r, List.mem_cons_self _ _, hr.1, hr.2, h⟩
    · simp only [memTranslator.scan, hr, if_false] at h
      obtain ⟨r', hmem, h'⟩ := ih h
      exact ⟨r', List.mem_cons_of_mem _ hmem, h'⟩

theorem Resolve_of_scan_some (t : memTranslator) (locale key m : GoString)
    (h : memTranslator.scan t.records locale key = some m) :
    t.Resolve locale key = m := by
  rw [memTranslator.Resolve, h]

theorem Resolve_fallback_of_scan_none (t : memTranslator) (key : GoString)
    (h : memTranslator.scan t.records t.fallback key = none) :
    t.Resolve t.fallback key = [] := by
  rw [memTranslator.Resolve, h]
  simp

theorem Resolve_of_scan_none (t : memTranslator) (locale key : GoString)
    (h : memTranslator.scan t.records locale key = none) :
    t.Resolve locale key = t.Resolve t.fallback key := by
  by_cases hl : locale = t.fallback
  · rw [hl]
  · rw [memTranslator.Resolve, h]
    simp [hl]

/-- The closed form of `Resolve`: the first hit for the locale, else the first
hit for the fallback, else the empty string. -/
theorem Resolve_eq (t : memTranslator) (locale key : GoString) :
    t.Resolve locale key =
      match memTranslator.scan t.records locale key with
      | some m => m
      | none =>
        match memTranslator.scan t.records t.fallback key with
        | some m => m
        | none => [] := by
  cases h : memTranslator.scan t.records locale key with
  | some m => simpa using Resolve_of_scan_some t locale key m h
  | none =>
    rw [Resolve_of_scan_none t locale key h]
    cases h' : memTranslator.scan t.records t.fallback key with
    | some m => simpa using Resolve_of_scan_some t t.fallback key m h'
    | none => simpa using Resolve_fallback_of_scan_none t key h'

theorem RegisterAll_records (t : memTranslator)
    (calls : List (GoString × GoString × GoString)) :
    (t.RegisterAll calls).records =
      t.records ++ calls.map (fun c => { locale := c.1, key := c.2.1, message := c.2.2 }) := by
  induction calls generalizing t with
  | nil => simp [memTranslator.RegisterAll]
  | cons c cs ih =>
    have := ih (t.Register c.1 c.2.1 c.2.2)
    simp only [memTranslator.RegisterAll, List.foldl_cons] at this ⊢
    rw [this]
    simp [memTranslator.Register]

theorem RegisterAll_fallback (t : memTranslator)
    (calls : List (GoString × GoString × GoString)) :
    (t.RegisterAll calls).fallback = t.fallback := by
  induction calls generalizing t with
  | nil => rfl
  | cons c cs ih =>
    have := ih (t.Register c.1 c.2.1 c.2.2)
    simp only [memTranslator.RegisterAll, List.foldl_cons] at this ⊢
    rw [this]
    rfl

/-! ### Lemmas on `strings.ReplaceAll` -/

theorem replaceScan_fuel (old new : GoString) (hold : old ≠ []) :
    ∀ (fuel fuel' : Nat) (s : GoString), s.length ≤ fuel → s.length ≤ fuel' →
      replaceScan old new fuel s = replaceScan old new fuel' s := by
  intro fuel
  induction fuel with
  | zero =>
    intro fuel' s h _
    have hs : s = [] := List.length_eq_zero.1 (Nat.le_zero.1 h)
    subst hs
    cases fuel' <;> rfl
  | succ n ih =>
    intro fuel' s h h'
    cases s with
    | nil => cases fuel' <;> rfl
    | cons c cs =>
      cases fuel' with
      | zero => simp at h'
      | succ m =>
        simp only [List.length_cons, Nat.add_le_add_iff_right] at h h'
        have hpos : 0 < old.length := List.length_pos.2 hold
        have hdrop : ((c :: cs).drop old.length).length ≤ cs.length := by
          simp only [List.length_drop, List.length_cons]
          omega
        simp only [replaceScan]
        split
        · rw [ih m _ (le_trans hdrop h) (le_trans hdrop h')]
        · rw [ih m cs h h']

theorem ReplaceAll_nil (old new : GoString) (hold : old ≠ []) :
    ReplaceAll [] old new = [] := by
  simp [ReplaceAll, hold, replaceScan]

theorem ReplaceAll_cons_skip (old new : GoString) (c : Char) (cs : GoString)
    (hold : old ≠ []) (h : ¬ old <+: c :: cs) :
    ReplaceAll (c :: cs) old new = c :: ReplaceAll cs old new := by
  have hb : old.isPrefixOf (c :: cs) = false := by
    rw [Bool.eq_false_iff]
    exact fun hp => h (List.isPrefixOf_iff_prefix.1 hp)
  simp only [ReplaceAll, hold, if_false, List.length_cons, replaceScan, hb, Bool.false_eq_true]

theorem ReplaceAll_append_match (old new rest : GoString) (hold : old ≠ []) :
    ReplaceAll (old ++ rest) old new = new ++ ReplaceAll rest old new := by
  obtain ⟨c, cs, rfl⟩ := List.exists_cons_of_ne_nil hold
  have hb : (c :: cs).isPrefixOf (c :: (cs ++ rest)) = true :=
    List.isPrefixOf_iff_prefix.2 (List.prefix_append (c :: cs) rest)
  have hdrop : (c :: (cs ++ rest)).drop (c :: cs).length = rest :=
    List.drop_left (c :: cs) rest
  unfold ReplaceAll
  rw [if_neg hold, if_neg hold]
  show replaceScan (c :: cs) new ((cs ++ rest).length + 1) (c :: (cs ++ rest)) = _
  rw [replaceScan, if_pos hb, hdrop,
    replaceScan_fuel (c :: cs) new hold (cs ++ rest).length rest.length rest (by simp) le_rfl]

theorem ReplaceAll_cons_of_ne_head (old' new : GoString) (o c : Char) (cs : GoString)
    (h : c ≠ o) :
    ReplaceAll (c :: cs) (o :: old') new = c :: ReplaceAll cs (o :: old') new := by
  apply ReplaceAll_cons_skip _ _ _ _ (List.cons_ne_nil _ _)
  intro hp
  exact h (List.cons_prefix_cons.1 hp).1.symm

theorem ReplaceAll_of_absent (old new : GoString) (hold : old ≠ []) :
    ∀ s : GoString, ¬ old <:+: s → ReplaceAll s old new = s := by
  intro s
  induction s with
  | nil => intro _; exact ReplaceAll_nil old new hold
  | cons c cs ih =>
    intro h
    rw [ReplaceAll_cons_skip old new c cs hold (fun hp => h hp.isInfix),
      ih (fun hi => h (List.infix_cons hi))]

/-- When the occurrence of `old` behind `a` is the leftmost one, the scan copies
`a`, writes `new` and goes on behind the occurrence. -/
theorem ReplaceAll_leftmost (old new : GoString) (hold : old ≠ []) (rest : GoString) :
    ∀ a : GoString, ¬ old <:+: a ++ old.dropLast →
      ReplaceAll (a ++ old ++ rest) old new = a ++ new ++ ReplaceAll rest old new := by
  intro a
  induction a with
  | nil => intro _; simpa using ReplaceAll_append_match old new rest hold
  | cons c a ih =>
    intro h
    have hnp : ¬ old <+: c :: (a ++ old ++ rest) := by
      intro hp
      apply h
      have h1 : (c :: a) ++ old.dropLast <+: c :: (a ++ old ++ rest) := by
        have := (List.prefix_append_right_inj (c :: a)).2
          ((List.dropLast_prefix old).trans (List.prefix_append old rest))
        simpa using this
      have hlen : old.length ≤ ((c :: a) ++ old.dropLast).length := by
        have := List.length_pos.2 hold
        simp only [List.length_append, List.length_cons, List.length_dropLast]
        omega
      exact (List.prefix_of_prefix_length_le hp h1 hlen).isInfix
    have ha : ¬ old <:+: a ++ old.dropLast := fun hi => h (by simpa using List.infix_cons hi)
    simp only [List.cons_append]
    rw [ReplaceAll_cons_skip old new c _ hold hnp, ih ha]

theorem ReplacedEvery_cons (old new : GoString) (c : Char) (s r : GoString)
    (hnp : ¬ old <+: c :: s) (h : ReplacedEvery old new s r) :
    ReplacedEvery old new (c :: s) (c :: r) := by
  cases h with
  | done _ hs =>
    apply ReplacedEvery.done
    intro hi
    rcases List.infix_cons_iff.1 hi with hp | hi'
    · exact hnp hp
    · exact hs hi'
  | step a rest r' ha hrest =>
    have := @ReplacedEvery.step old new (c :: a) rest r' (by
      intro hi
      rcases List.infix_cons_iff.1 (by simpa using hi) with hp | hi'
      · apply hnp
        have h1 : c :: (a ++ old.dropLast) <+: c :: (a ++ old ++ rest) := by
          have := (List.prefix_append_right_inj (c :: a)).2
            ((List.dropLast_prefix old).trans (List.prefix_append old rest))
          simpa using this
        exact hp.trans h1
      · exact ha hi') hrest
    simpa using this

/-- The scan of `strings.ReplaceAll` meets the specification-side relation. -/
theorem ReplaceAll_spec (old new : GoString) (hold : old ≠ []) :
    ∀ (n : Nat) (s : GoString), s.length ≤ n →
      ReplacedEvery old new s (ReplaceAll s old new) := by
  intro n
  induction n with
  | zero =>
    intro s hs
    have : s = [] := List.length_eq_zero.1 (Nat.le_zero.1 hs)
    subst this
    rw [ReplaceAll_nil old new hold]
    apply ReplacedEvery.done
    intro hi
    exact hold (List.eq_nil_of_infix_nil hi)
  | succ n ih =>
    intro s hs
    cases s with
    | nil =>
      rw [ReplaceAll_nil old new hold]
      apply ReplacedEvery.done
      intro hi
      exact hold (List.eq_nil_of_infix_nil hi)
    | cons c cs =>
      by_cases hp : old <+: c :: cs
      · obtain ⟨rest, hrest⟩ := hp
        rw [← hrest, ReplaceAll_append_match old new rest hold]
        have hlen : rest.length ≤ n := by
          have h1 : (old ++ rest).length = (c :: cs).length := by rw [hrest]
          have h2 := List.length_pos.2 hold
          simp only [List.length_append, List.length_cons] at h1 hs
          omega
        have := @ReplacedEvery.step old new [] rest _ (by
          intro hi
          have h1 := hi.length_le
          have h2 := List.length_pos.2 hold
          simp only [List.nil_append, List.length_dropLast] at h1
          omega) (ih rest hlen)
        simpa using this
      · rw [ReplaceAll_cons_skip old new c cs hold hp]
        apply ReplacedEvery_cons old new c cs _ hp
        exact ih cs (by simpa using hs)

/-- The specification-side relation determines the result of `strings.ReplaceAll`. -/
theorem ReplacedEvery_iff (old new : GoString) (hold : old ≠ []) (s r : GoString) :
    ReplacedEvery old new s r ↔ r = ReplaceAll s old new := by
  constructor
  · intro h
    induction h with
    | done s hs => exact (ReplaceAll_of_absent old new hold s hs).symm
    | step a rest r' ha _ ih => rw [ReplaceAll_leftmost old new hold rest a ha, ih]
  · rintro rfl
    exact ReplaceAll_spec old new hold s.length s le_rfl

theorem placeholder_ne_nil (p : GoString) : placeholder p ≠ [] := by
  simp [placeholder]

/-! ### Placeholders with names free of braces -/

theorem lbrace_ne_rbrace : lbrace ≠ rbrace := by decide

theorem placeholder_eq_cons (p : GoString) : placeholder p = lbrace :: (p ++ [rbrace]) := rfl

theorem placeholder_append (p rest : GoString) :
    placeholder p ++ rest = lbrace :: (p ++ rbrace :: rest) := by
  simp [placeholder]

theorem braceFree_nil : braceFree [] := by
  intro c hc
  simp at hc

theorem braceFree_cons {c : Char} {s : GoString} :
    braceFree (c :: s) ↔ (c ≠ lbrace ∧ c ≠ rbrace) ∧ braceFree s := by
  simp [braceFree]

theorem braceFree_append {u s : GoString} :
    braceFree (u ++ s) ↔ braceFree u ∧ braceFree s := by
  simp only [braceFree, List.mem_append]
  constructor
  · intro h
    exact ⟨fun c hc => h c (Or.inl hc), fun c hc => h c (Or.inr hc)⟩
  · rintro ⟨h1, h2⟩ c (hc | hc)
    · exact h1 c hc
    · exact h2 c hc

theorem rbrace_mem_of_placeholder_occurs {p s : GoString} (h : placeholder p <:+: s) :
    rbrace ∈ s := by
  obtain ⟨u, w, rfl⟩ := h
  simp [placeholder]

theorem lbrace_mem_of_placeholder_occurs {p s : GoString} (h : placeholder p <:+: s) :
    lbrace ∈ s := by
  obtain ⟨u, w, rfl⟩ := h
  simp [placeholder]

theorem ReplaceAll_cons_of_ne_lbrace (p v : GoString) (c : Char) (s : GoString)
    (h : c ≠ lbrace) :
    ReplaceAll (c :: s) (placeholder p) v = c :: ReplaceAll s (placeholder p) v :=
  ReplaceAll_cons_of_ne_head (p ++ [rbrace]) v lbrace c s h

theorem ReplaceAll_append_of_no_lbrace (p v : GoString) (s : GoString) :
    ∀ u : GoString, lbrace ∉ u →
      ReplaceAll (u ++ s) (placeholder p) v = u ++ ReplaceAll s (placeholder p) v := by
  intro u
  induction u with
  | nil => intro _; rfl
  | cons c u ih =>
    intro h
    have hc : c ≠ lbrace := fun hc => h (by simp [hc])
    have hu : lbrace ∉ u := fun hu => h (List.mem_cons_of_mem _ hu)
    simp only [List.cons_append]
    rw [ReplaceAll_cons_of_ne_lbrace p v c _ hc, ih hu]

theorem ReplaceAll_placeholder_self (p v rest : GoString) :
    ReplaceAll (placeholder p ++ rest) (placeholder p) v =
      v ++ ReplaceAll rest (placeholder p) v :=
  ReplaceAll_append_match (placeholder p) v rest (placeholder_ne_nil p)

/-- Two texts that agree up to a first `}` have the same part before it. -/
theorem eq_of_append_rbrace_match :
    ∀ (a x t : GoString), rbrace ∉ a → rbrace ∉ x →
      a ++ [rbrace] <+: x ++ rbrace :: t → a = x := by
  intro a
  induction a with
  | nil =>
    intro x t _ hx h
    cases x with
    | nil => rfl
    | cons c x =>
      have h' : [rbrace] <+: c :: (x ++ rbrace :: t) := h
      have := (List.cons_prefix_cons.1 h').1
      exact absurd (by simp [← this]) hx
  | cons c a ih =>
    intro x t ha hx h
    cases x with
    | nil =>
      have h' : c :: (a ++ [rbrace]) <+: rbrace :: t := h
      have := (List.cons_prefix_cons.1 h').1
      exact absurd (by simp [this]) ha
    | cons d x =>
      have h'' : c :: (a ++ [rbrace]) <+: d :: (x ++ rbrace :: t) := h
      have h' := List.cons_prefix_cons.1 h''
      have hax := ih x t (fun hm => ha (List.mem_cons_of_mem _ hm))
        (fun hm => hx (List.mem_cons_of_mem _ hm)) h'.2
      rw [h'.1, hax]

theorem placeholder_prefix_inj (a x rest : GoString) (ha : rbrace ∉ a) (hx : rbrace ∉ x)
    (h : placeholder a <+: placeholder x ++ rest) : a = x := by
  rw [placeholder_append, placeholder_eq_cons] at h
  exact eq_of_append_rbrace_match a x rest ha hx (List.cons_prefix_cons.1 h).2

theorem ReplaceAll_placeholder_other (a x v rest : GoString) (hne : x ≠ a)
    (ha : rbrace ∉ a) (hx : braceFree x) :
    ReplaceAll (placeholder x ++ rest) (placeholder a) v =
      placeholder x ++ ReplaceAll rest (placeholder a) v := by
  have hxr : rbrace ∉ x := fun h => (hx _ h).2 rfl
  have hxl : lbrace ∉ x := fun h => (hx _ h).1 rfl
  have hnp : ¬ placeholder a <+: lbrace :: (x ++ rbrace :: rest) := by
    intro hp
    rw [← placeholder_append] at hp
    exact hne (placeholder_prefix_inj a x rest ha hxr hp).symm
  rw [placeholder_append, ReplaceAll_cons_skip _ v lbrace _ (placeholder_ne_nil a) hnp,
    ReplaceAll_append_of_no_lbrace a v _ x hxl,
    ReplaceAll_cons_of_ne_lbrace a v rbrace rest (Ne.symm lbrace_ne_rbrace),
    placeholder_append]

/-! ### Templates whose braces are not nested -/

theorem flatFrom_append_braceFree (s : GoString) :
    ∀ (u : GoString) (inside : Bool), braceFree u →
      flatFrom inside (u ++ s) = flatFrom inside s := by
  intro u
  induction u with
  | nil => intro _ _; rfl
  | cons c u ih =>
    intro inside h
    obtain ⟨⟨h1, h2⟩, hu⟩ := braceFree_cons.1 h
    simp only [List.cons_append, flatFrom, h1, h2, if_false]
    exact ih inside hu

theorem flatFrom_braceFree (u : GoString) (inside : Bool) (h : braceFree u) :
    flatFrom inside u = true := by
  have := flatFrom_append_braceFree [] u inside h
  simpa [flatFrom] using this

theorem flat_cons_of_ne_lbrace {c : Char} {s : GoString} (hc : c ≠ lbrace) :
    flat (c :: s) = flat s := by
  by_cases hr : c = rbrace
  · simp [flat, flatFrom, hc, hr, Ne.symm lbrace_ne_rbrace]
  · simp [flat, flatFrom, hc, hr]

theorem flat_placeholder_append {x rest : GoString} (hx : braceFree x) :
    flat (placeholder x ++ rest) = flat rest := by
  rw [placeholder_append]
  simp only [flat, flatFrom, if_true, Bool.not_false, Bool.true_and]
  rw [flatFrom_append_braceFree _ x true hx]
  simp [flatFrom, Ne.symm lbrace_ne_rbrace]

theorem flat_append_braceFree {u s : GoString} (hu : braceFree u) :
    flat (u ++ s) = flat s :=
  flatFrom_append_braceFree s u false hu

/-- Behind a `{` a flat template either has no brace at all, or goes on with a name
free of braces, a `}` and a flat template. -/
theorem flatFrom_true_cases :
    ∀ w : GoString, flatFrom true w = true →
      braceFree w ∨
        ∃ x rest : GoString, w = x ++ rbrace :: rest ∧ braceFree x ∧ flat rest = true := by
  intro w
  induction w with
  | nil => intro _; exact Or.inl braceFree_nil
  | cons c w ih =>
    intro h
    by_cases hl : c = lbrace
    · simp [flatFrom, hl] at h
    · by_cases hr : c = rbrace
      · right
        refine ⟨[], w, by simp [hr], braceFree_nil, ?_⟩
        simpa [flatFrom, hl, hr, flat, Ne.symm lbrace_ne_rbrace] using h
      · have h' : flatFrom true w = true := by simpa [flatFrom, hl, hr] using h
        rcases ih h' with hw | ⟨x, rest, hw, hx, hrest⟩
        · exact Or.inl (braceFree_cons.2 ⟨⟨hl, hr⟩, hw⟩)
        · exact Or.inr ⟨c :: x, rest, by simp [hw], braceFree_cons.2 ⟨⟨hl, hr⟩, hx⟩, hrest⟩

/-- Induction over a flat template, piece by piece: a character other than `{`, a
placeholder `{x}` with `x` free of braces, or a last `{` with no brace behind it. -/
theorem flat_induction (P : GoString → Prop) (hnil : P [])
    (hchar : ∀ (c : Char) (s : GoString), c ≠ lbrace → flat s = true → P s → P (c :: s))
    (hopen : ∀ w : GoString, braceFree w → P (lbrace :: w))
    (hhole : ∀ x rest : GoString, braceFree x → flat rest = true → P rest →
      P (placeholder x ++ rest)) :
    ∀ m : GoString, flat m = true → P m := by
  have key : ∀ (n : Nat) (m : GoString), m.length ≤ n → flat m = true → P m := by
    intro n
    induction n with
    | zero =>
      intro m hm _
      have : m = [] := List.length_eq_zero.1 (Nat.le_zero.1 hm)
      subst this
      exact hnil
    | succ n ih =>
      intro m hm hflat
      cases m with
      | nil => exact hnil
      | cons c cs =>
        by_cases hl : c = lbrace
        · subst hl
          have hw : flatFrom true cs = true := by simpa [flat, flatFrom] using hflat
          rcases flatFrom_true_cases cs hw with hfree | ⟨x, rest, hcs, hx, hrest⟩
          · exact hopen cs hfree
          · have hlen : rest.length ≤ n := by
              have : cs.length = x.length + (rest.length + 1) := by simp [hcs]
              simp only [List.length_cons] at hm
              omega
            have := hhole x rest hx hrest (ih rest hlen hrest)
            rw [placeholder_append, ← hcs] at this
            exact this
        · have hcs : flat cs = true := by rw [← flat_cons_of_ne_lbrace hl]; exact hflat
          exact hchar c cs hl hcs (ih cs (by simpa using hm) hcs)
  intro m hm
  exact key m.length m le_rfl hm

/-! ### Replacements on flat templates -/

theorem ReplaceAll_open_braceFree (p v w : GoString) (hw : braceFree w) :
    ReplaceAll (lbrace :: w) (placeholder p) v = lbrace :: w := by
  apply ReplaceAll_of_absent _ _ (placeholder_ne_nil p)
  intro hi
  have := rbrace_mem_of_placeholder_occurs hi
  rcases List.mem_cons.1 this with h | h
  · exact lbrace_ne_rbrace h.symm
  · exact (hw _ h).2 rfl

/-- A replacement with a name and a value free of braces keeps a template flat. -/
theorem flat_ReplaceAll (a v : GoString) (ha : braceFree a) (hv : braceFree v) :
    ∀ m : GoString, flat m = true → flat (ReplaceAll m (placeholder a) v) = true := by
  have har : rbrace ∉ a := fun h => (ha _ h).2 rfl
  apply flat_induction
  · rw [ReplaceAll_nil _ _ (placeholder_ne_nil a)]
    rfl
  · intro c s hc _ ih
    rw [ReplaceAll_cons_of_ne_lbrace a v c s hc, flat_cons_of_ne_lbrace hc]
    exact ih
  · intro w hw
    rw [ReplaceAll_open_braceFree a v w hw]
    simpa [flat, flatFrom] using flatFrom_braceFree w true hw
  · intro x rest hx _ ih
    by_cases hxa : x = a
    · subst hxa
      rw [ReplaceAll_placeholder_self, flat_append_braceFree hv]
      exact ih
    · rw [ReplaceAll_placeholder_other a x v rest hxa har hx, flat_placeholder_append hx]
      exact ih

/-- On a flat template two replacements with different names, all names and values
free of braces, can be done in either order. -/
theorem ReplaceAll_comm_flat (a b va vb : GoString) (hab : a ≠ b)
    (ha : braceFree a) (hb : braceFree b) (hva : braceFree va) (hvb : braceFree vb) :
    ∀ m : GoString, flat m = true →
      ReplaceAll (ReplaceAll m (placeholder a) va) (placeholder b) vb =
        ReplaceAll (ReplaceAll m (placeholder b) vb) (placeholder a) va := by
  have har : rbrace ∉ a := fun h => (ha _ h).2 rfl
  have hbr : rbrace ∉ b := fun h => (hb _ h).2 rfl
  have hval : lbrace ∉ va := fun h => (hva _ h).1 rfl
  have hvbl : lbrace ∉ vb := fun h => (hvb _ h).1 rfl
  apply flat_induction
  · simp only [ReplaceAll_nil _ _ (placeholder_ne_nil _)]
  · intro c s hc _ ih
    simp only [ReplaceAll_cons_of_ne_lbrace _ _ c _ hc, ih]
  · intro w hw
    simp only [ReplaceAll_open_braceFree _ _ w hw]
  · intro x rest hx _ ih
    by_cases hxa : x = a
    · subst hxa
      rw [ReplaceAll_placeholder_self, ReplaceAll_append_of_no_lbrace b vb _ va hval,
        ReplaceAll_placeholder_other b x vb rest hab hbr hx, ReplaceAll_placeholder_self, ih]
    · by_cases hxb : x = b
      · subst hxb
        rw [ReplaceAll_placeholder_self, ReplaceAll_append_of_no_lbrace a va _ vb hvbl,
          ReplaceAll_placeholder_other a x va rest hxa har hx, ReplaceAll_placeholder_self, ih]
      · rw [ReplaceAll_placeholder_other a x va rest hxa har hx,
          ReplaceAll_placeholder_other b x vb _ hxb hbr hx,
          ReplaceAll_placeholder_other b x vb rest hxb hbr hx,
          ReplaceAll_placeholder_other a x va _ hxa har hx, ih]

theorem substitute_cons (m : GoString) (e : GoString × GoString)
    (placeholders : List (GoString × GoString)) :
    substitute m (e :: placeholders) =
      substitute (ReplaceAll m (placeholder e.1) e.2) placeholders := rfl

theorem substitute_append (m : GoString) (ps qs : List (GoString × GoString)) :
    substitute m (ps ++ qs) = substitute (substitute m ps) qs := by
  simp [substitute, List.foldl_append]

theorem plainEntries_cons {e : GoString × GoString} {ps : List (GoString × GoString)} :
    plainEntries (e :: ps) ↔ (braceFree e.1 ∧ braceFree e.2) ∧ plainEntries ps := by
  simp [plainEntries]

theorem plainEntries_perm {ps qs : List (GoString × GoString)} (h : ps.Perm qs)
    (hp : plainEntries ps) : plainEntries qs :=
  fun e he => hp e (h.mem_iff.2 he)

/-- On a flat template, with names and values free of braces and names pairwise
different, the result of the loop does not depend on the order of the entries. -/
theorem substitute_perm {ps qs : List (GoString × GoString)} (h : ps.Perm qs) :
    plainEntries ps → (ps.map Prod.fst).Nodup →
      ∀ m : GoString, flat m = true → substitute m ps = substitute m qs := by
  induction h with
  | nil => intro _ _ _ _; rfl
  | cons e _ ih =>
    intro hp hn m hm
    obtain ⟨⟨he1, he2⟩, hp'⟩ := plainEntries_cons.1 hp
    rw [substitute_cons, substitute_cons]
    exact ih hp' (List.nodup_cons.1 (by simpa using hn)).2 _ (flat_ReplaceAll e.1 e.2 he1 he2 m hm)
  | swap x y l =>
    intro hp hn m hm
    obtain ⟨⟨hy1, hy2⟩, hp'⟩ := plainEntries_cons.1 hp
    obtain ⟨⟨hx1, hx2⟩, _⟩ := plainEntries_cons.1 hp'
    have hne : y.1 ≠ x.1 := by
      have := (List.nodup_cons.1 (by simpa using hn : (y.1 :: x.1 :: l.map Prod.fst).Nodup)).1
      intro heq
      exact this (by simp [heq])
    simp only [substitute_cons]
    rw [ReplaceAll_comm_flat y.1 x.1 y.2 x.2 hne hy1 hx1 hy2 hx2 m hm]
  | trans h1 _ ih1 ih2 =>
    intro hp hn m hm
    rw [ih1 hp hn m hm]
    exact ih2 (plainEntries_perm h1 hp) ((h1.map Prod.fst).nodup_iff.1 hn) m hm

/-! ### Counting the occurrences of a placeholder -/

theorem occurrences_le_cons (pat : GoString) (c : Char) (s : GoString) :
    occurrences pat s ≤ occurrences pat (c :: s) := by
  simp [occurrences]

theorem occurrences_le_append (pat s : GoString) :
    ∀ u : GoString, occurrences pat s ≤ occurrences pat (u ++ s) := by
  intro u
  induction u with
  | nil => exact le_rfl
  | cons c u ih => exact le_trans ih (occurrences_le_cons pat c (u ++ s))

theorem occurrences_cons_of_ne_lbrace (p : GoString) (c : Char) (s : GoString)
    (hc : c ≠ lbrace) :
    occurrences (placeholder p) (c :: s) = occurrences (placeholder p) s := by
  have : (placeholder p).isPrefixOf (c :: s) = false := by
    rw [Bool.eq_false_iff]
    intro h
    have := (List.cons_prefix_cons.1 (List.isPrefixOf_iff_prefix.1 h)).1
    exact hc this.symm
  simp [occurrences, this]

theorem occurrences_append_of_no_lbrace (p s : GoString) :
    ∀ u : GoString, lbrace ∉ u →
      occurrences (placeholder p) (u ++ s) = occurrences (placeholder p) s := by
  intro u
  induction u with
  | nil => intro _; rfl
  | cons c u ih =>
    intro h
    have hc : c ≠ lbrace := fun hc => h (by simp [hc])
    have hu : lbrace ∉ u := fun hu => h (List.mem_cons_of_mem _ hu)
    simp only [List.cons_append]
    rw [occurrences_cons_of_ne_lbrace p c _ hc, ih hu]

/-- No occurrence of `{x}` starts inside an occurrence of `{a}` when the names
differ and are free of braces. -/
theorem occurrences_placeholder_append (x a rest : GoString) (hne : x ≠ a)
    (hx : braceFree x) (ha : braceFree a) :
    occurrences (placeholder x) (placeholder a ++ rest) = occurrences (placeholder x) rest := by
  have hxr : rbrace ∉ x := fun h => (hx _ h).2 rfl
  have har : rbrace ∉ a := fun h => (ha _ h).2 rfl
  have hal : lbrace ∉ a := fun h => (ha _ h).1 rfl
  have hnp : (placeholder x).isPrefixOf (lbrace :: (a ++ rbrace :: rest)) = false := by
    rw [Bool.eq_false_iff]
    intro h
    have hp := List.isPrefixOf_iff_prefix.1 h
    rw [← placeholder_append] at hp
    exact hne (placeholder_prefix_inj x a rest hxr har hp)
  rw [placeholder_append]
  simp only [occurrences, hnp, Bool.false_eq_true, if_false, Nat.zero_add]
  rw [occurrences_append_of_no_lbrace x _ a hal,
    occurrences_cons_of_ne_lbrace x rbrace rest (Ne.symm lbrace_ne_rbrace)]

/-- One replacement does not lower the number of occurrences of another
placeholder, names being free of braces. -/
theorem occurrences_le_ReplaceAll (x a v : GoString) (hne : x ≠ a)
    (hx : braceFree x) (ha : braceFree a) :
    ∀ (n : Nat) (m : GoString), m.length ≤ n →
      occurrences (placeholder x) m ≤
        occurrences (placeholder x) (ReplaceAll m (placeholder a) v) := by
  have har : rbrace ∉ a := fun h => (ha _ h).2 rfl
  intro n
  induction n with
  | zero =>
    intro m hm
    have : m = [] := List.length_eq_zero.1 (Nat.le_zero.1 hm)
    subst this
    rw [ReplaceAll_nil _ _ (placeholder_ne_nil a)]
  | succ n ih =>
    intro m hm
    cases m with
    | nil => rw [ReplaceAll_nil _ _ (placeholder_ne_nil a)]
    | cons c cs =>
      by_cases hp : placeholder a <+: c :: cs
      · obtain ⟨rest, hrest⟩ := hp
        have hlen : rest.length ≤ n := by
          have h1 : (placeholder a ++ rest).length = (c :: cs).length := by rw [hrest]
          simp only [placeholder, List.length_append, List.length_cons, List.length_nil] at h1 hm
          omega
        rw [← hrest, ReplaceAll_placeholder_self, occurrences_placeholder_append x a rest hne hx ha]
        exact le_trans (ih rest hlen) (occurrences_le_append _ _ v)
      · rw [ReplaceAll_cons_skip _ v c cs (placeholder_ne_nil a) hp]
        have hcs := ih cs (by simpa using hm)
        by_cases hxp : placeholder x <+: c :: cs
        · obtain ⟨rest, hrest⟩ := hxp
          have hkeep : placeholder x <+: c :: ReplaceAll cs (placeholder a) v := by
            rw [← ReplaceAll_cons_skip _ v c cs (placeholder_ne_nil a) hp, ← hrest,
              ReplaceAll_placeholder_other a x v rest hne har hx]
            exact List.prefix_append _ _
          have h1 : (placeholder x).isPrefixOf (c :: cs) = true :=
            List.isPrefixOf_iff_prefix.2 ⟨rest, hrest⟩
          have h2 : (placeholder x).isPrefixOf (c :: ReplaceAll cs (placeholder a) v) = true :=
            List.isPrefixOf_iff_prefix.2 hkeep
          simp only [occurrences, h1, h2, if_true]
          omega
        · have h1 : (placeholder x).isPrefixOf (c :: cs) = false := by
            rw [Bool.eq_false_iff]
            exact fun h => hxp (List.isPrefixOf_iff_prefix.1 h)
          simp only [occurrences, h1, Bool.false_eq_true, if_false, Nat.zero_add]
          exact le_trans hcs (Nat.le_add_left _ _)

theorem occurrences_le_substitute (x : GoString) (hx : braceFree x) :
    ∀ (ps : List (GoString × GoString)) (m : GoString),
      (∀ e ∈ ps, e.1 ≠ x ∧ braceFree e.1) →
      occurrences (placeholder x) m ≤ occurrences (placeholder x) (substitute m ps) := by
  intro ps
  induction ps with
  | nil => intro m _; exact le_rfl
  | cons e ps ih =>
    intro m h
    have he := h e (List.mem_cons_self _ _)
    rw [substitute_cons]
    exact le_trans
      (occurrences_le_ReplaceAll x e.1 e.2 (Ne.symm he.1) hx he.2 m.length m le_rfl)
      (ih _ (fun e' he' => h e' (List.mem_cons_of_mem _ he')))

/-! ## C1, C2: resolution in the in-memory backend -/

/-- C1: starting from `NewMemoryTranslator`, after any sequence of `Register` calls
in which `(locale, key, message)` is the first call for the pair `(locale, key)`,
`Resolve locale key` returns `message`, whatever is registered afterwards; one
more `Register` for the same pair with another message leaves the result as it is. -/
theorem C1_first_registration_wins (fallbackLocale locale key message : GoString)
    (before after : List (GoString × GoString × GoString))
    (hfirst : ∀ c ∈ before, ¬ (c.1 = locale ∧ c.2.1 = key)) :
    ((NewMemoryTranslator fallbackLocale).RegisterAll
        (before ++ (locale, key, message) :: after)).Resolve locale key = message ∧
    ∀ message' : GoString,
      (((NewMemoryTranslator fallbackLocale).RegisterAll
          (before ++ (locale, key, message) :: after)).Register locale key message').Resolve
        locale key = message := by
  have hscan : ∀ tail : List record,
      memTranslator.scan
        ((before ++ (locale, key, message) :: after).map
          (fun c => ({ locale := c.1, key := c.2.1, message := c.2.2 } : record)) ++ tail)
        locale key = some message := by
    intro tail
    have hnone : memTranslator.scan
        (before.map (fun c => ({ locale := c.1, key := c.2.1, message := c.2.2 } : record)))
        locale key = none := by
      rw [scan_eq_none_iff]
      intro r hr
      obtain ⟨c, hc, rfl⟩ := List.mem_map.1 hr
      exact hfirst c hc
    rw [List.map_append, List.append_assoc, scan_append, hnone]
    simp [memTranslator.scan]
  constructor
  · apply Resolve_of_scan_some
    rw [RegisterAll_records]
    simpa [NewMemoryTranslator, memTranslator.init] using hscan []
  · intro message'
    apply Resolve_of_scan_some
    simp only [memTranslator.Register]
    rw [RegisterAll_records]
    simpa [NewMemoryTranslator, memTranslator.init] using
      hscan [{ locale := locale, key := key, message := message' }]

/-- C1 at a concrete input: `fr/hi`, then `en/hi = "Hi"`, then `en/hi = "Hello"`. -/
theorem C1_first_registration_wins_witness :
    (∀ c ∈ [("fr".toList, "hi".toList, "Salut".toList)],
        ¬ (c.1 = "en".toList ∧ c.2.1 = "hi".toList)) ∧
    ((NewMemoryTranslator "en".toList).RegisterAll
        ([("fr".toList, "hi".toList, "Salut".toList)] ++
          ("en".toList, "hi".toList, "Hi".toList) ::
            [("en".toList, "hi".toList, "Hello".toList)])).Resolve
      "en".toList "hi".toList = "Hi".toList :=
  ⟨by decide,
    (C1_first_registration_wins "en".toList "en".toList "hi".toList "Hi".toList
      [("fr".toList, "hi".toList, "Salut".toList)]
      [("en".toList, "hi".toList, "Hello".toList)] (by decide)).1⟩

/-- C2: when no record has `(locale, key)`, `Resolve locale key` is
`Resolve fallback key`, and it is the empty string when no record has
`(fallback, key)` either.  Two nested calls are always enough for `Resolve` to
return, and one is enough when the locale is the fallback. -/
theorem C2_single_hop_fallback (t : memTranslator) (locale key : GoString)
    (hmiss : ∀ r ∈ t.records, ¬ (r.locale = locale ∧ r.key = key)) :
    t.Resolve locale key = t.Resolve t.fallback key ∧
    ((∀ r ∈ t.records, ¬ (r.locale = t.fallback ∧ r.key = key)) →
      t.Resolve locale key = []) ∧
    (∀ l k : GoString, t.ResolveDepth 2 l k = some (t.Resolve l k)) ∧
    (∀ k : GoString, t.ResolveDepth 1 t.fallback k = some (t.Resolve t.fallback k)) := by
  have h1 := (scan_eq_none_iff t.records locale key).2 hmiss
  have hone : ∀ k : GoString,
      t.ResolveDepth 1 t.fallback k = some (t.Resolve t.fallback k) := by
    intro k
    rw [Resolve_eq]
    cases h : memTranslator.scan t.records t.fallback k <;>
      simp [memTranslator.ResolveDepth, h]
  refine ⟨Resolve_of_scan_none t locale key h1, ?_, ?_, hone⟩
  · intro hfb
    have h2 := (scan_eq_none_iff t.records t.fallback key).2 hfb
    rw [Resolve_of_scan_none t locale key h1, Resolve_fallback_of_scan_none t key h2]
  · intro l k
    by_cases hl : l = t.fallback
    · rw [hl, Resolve_eq]
      cases h : memTranslator.scan t.records t.fallback k <;>
        simp [memTranslator.ResolveDepth, h]
    · cases h : memTranslator.scan t.records l k with
      | some m =>
        rw [Resolve_of_scan_some t l k m h]
        simp [memTranslator.ResolveDepth, h]
      | none =>
        rw [Resolve_of_scan_none t l k h, ← hone k]
        simp [memTranslator.ResolveDepth, h, hl]

/-- C2 at a concrete input: one record `en/hi`, fallback `en`, query `fr/hi`. -/
theorem C2_single_hop_fallback_witness :
    (∀ r ∈ [({ locale := "en".toList, key := "hi".toList, message := "Hi".toList } : record)],
        ¬ (r.locale = "fr".toList ∧ r.key = "hi".toList)) ∧
    memTranslator.Resolve
        { fallback := "en".toList,
          records := [{ locale := "en".toList, key := "hi".toList, message := "Hi".toList }] }
        "fr".toList "hi".toList =
      memTranslator.Resolve
        { fallback := "en".toList,
          records := [{ locale := "en".toList, key := "hi".toList, message := "Hi".toList }] }
        "en".toList "hi".toList :=
  ⟨by decide,
    (C2_single_hop_fallback
      { fallback := "en".toList,
        records := [{ locale := "en".toList, key := "hi".toList, message := "Hi".toList }] }
      "fr".toList "hi".toList (by decide)).1⟩

/-! ## C3: one placeholder -/

/-- C3: for both backends, `Translate locale key {n: v}` is `Resolve locale key` with
every occurrence of `"{" + n + "}"` replaced by `v` (the result is the one text
that the specification-side relation allows); when `Resolve locale key` is
`Hello {name}!`, `Translate locale key {"name": "John"}` is `Hello John!`. -/
theorem C3_translate_single_placeholder (js : JsonLib) (t : memTranslator) (d : JsonDriver)
    (locale key n v : GoString) :
    (∀ r : GoString, ReplacedEvery (placeholder n) v (t.Resolve locale key) r ↔
      r = t.Translate locale key [(n, v)]) ∧
    (∀ r : GoString, ReplacedEvery (placeholder n) v (d.Resolve js locale key) r ↔
      r = d.Translate js locale key [(n, v)]) ∧
    (t.Resolve locale key = "Hello \x7bname\x7d!".toList →
      t.Translate locale key [("name".toList, "John".toList)] = "Hello John!".toList) ∧
    (d.Resolve js locale key = "Hello \x7bname\x7d!".toList →
      d.Translate js locale key [("name".toList, "John".toList)] = "Hello John!".toList) := by
  refine ⟨fun r => ?_, fun r => ?_, fun h => ?_, fun h => ?_⟩
  · exact ReplacedEvery_iff (placeholder n) v (placeholder_ne_nil n) _ r
  · exact ReplacedEvery_iff (placeholder n) v (placeholder_ne_nil n) _ r
  · simp only [memTranslator.Translate, substitute, List.foldl_cons, List.foldl_nil, h]
    decide
  · simp only [JsonDriver.Translate, substitute, List.foldl_cons, List.foldl_nil, h]
    decide

/-- C3 at a concrete input: `en/welcome` registered as `Hello {name}!`. -/
theorem C3_translate_single_placeholder_witness :
    memTranslator.Translate
        { fallback := "en".toList,
          records := [{ locale := "en".toList, key := "welcome".toList,
                        message := "Hello \x7bname\x7d!".toList }] }
        "en".toList "welcome".toList [("name".toList, "John".toList)] =
      "Hello John!".toList :=
  (C3_translate_single_placeholder
    { Valid := fun _ => true, Get := fun _ _ => none, Reencode := fun s => Except.ok s }
    { fallback := "en".toList,
      records := [{ locale := "en".toList, key := "welcome".toList,
                    message := "Hello \x7bname\x7d!".toList }] }
    { fallback := [], dir := [], jsonData := [] }
    "en".toList "welcome".toList [] []).2.2.1
    (by rw [Resolve_eq]; decide)

/-! ## C4, C5, C6: several placeholders -/

/-- C4, as stated, fails: on the template `{a}` the entries `a: "{b}"` and `b: "x"`
give `x` when `a` is visited first and `{b}` when `b` is visited first. -/
theorem C4_order_counterexample :
    ¬ ∀ (m : GoString) (ps qs : List (GoString × GoString)),
        ps.Perm qs → (ps.map Prod.fst).Nodup → substitute m ps = substitute m qs := by
  intro h
  have := h "\x7ba\x7d".toList
    [("a".toList, "\x7bb\x7d".toList), ("b".toList, "x".toList)]
    [("b".toList, "x".toList), ("a".toList, "\x7bb\x7d".toList)]
    (List.Perm.swap _ _ _) (by decide)
  revert this
  decide

/-- C4, amended: on a template whose braces are not nested, with pairwise different
names and with names and values free of braces, any two orders of the entries give
the same result of the loop, hence of `Translate` in both backends. -/
theorem C4_order_irrelevant_on_flat_templates (m : GoString)
    (ps qs : List (GoString × GoString)) (horder : ps.Perm qs)
    (hnames : (ps.map Prod.fst).Nodup) (hplain : plainEntries ps) (hflat : flat m = true) :
    substitute m ps = substitute m qs ∧
    (∀ (t : memTranslator) (locale key : GoString), t.Resolve locale key = m →
      t.Translate locale key ps = t.Translate locale key qs) ∧
    (∀ (js : JsonLib) (d : JsonDriver) (locale key : GoString), d.Resolve js locale key = m →
      d.Translate js locale key ps = d.Translate js locale key qs) := by
  have h := substitute_perm horder hplain hnames m hflat
  refine ⟨h, fun t locale key hm => ?_, fun js d locale key hm => ?_⟩
  · simp only [memTranslator.Translate, hm, h]
  · simp only [JsonDriver.Translate, hm, h]

/-- C4, amended, at a concrete input: `Hello {a} and {b}` with `a: "Ann"`, `b: "Bob"`. -/
theorem C4_order_irrelevant_on_flat_templates_witness :
    ([("a".toList, "Ann".toList), ("b".toList, "Bob".toList)].Perm
        [("b".toList, "Bob".toList), ("a".toList, "Ann".toList)] ∧
      ([("a".toList, "Ann".toList), ("b".toList, "Bob".toList)].map Prod.fst).Nodup ∧
      plainEntries [("a".toList, "Ann".toList), ("b".toList, "Bob".toList)] ∧
      flat "Hello \x7ba\x7d and \x7bb\x7d".toList = true) ∧
    substitute "Hello \x7ba\x7d and \x7bb\x7d".toList
        [("a".toList, "Ann".toList), ("b".toList, "Bob".toList)] =
      substitute "Hello \x7ba\x7d and \x7bb\x7d".toList
        [("b".toList, "Bob".toList), ("a".toList, "Ann".toList)] :=
  ⟨⟨List.Perm.swap _ _ _, by decide, by decide, by decide⟩,
    (C4_order_irrelevant_on_flat_templates "Hello \x7ba\x7d and \x7bb\x7d".toList
      [("a".toList, "Ann".toList), ("b".toList, "Bob".toList)]
      [("b".toList, "Bob".toList), ("a".toList, "Ann".toList)]
      (List.Perm.swap _ _ _) (by decide) (by decide) (by decide)).1⟩

/-- C5, as stated, fails: `{b}` does not occur in the template `{a}`, yet with the
entries `a: "{b}"`, `b: "x"` visited in this order the result is `x`, and without
the entry `b` it is `{b}`. -/
theorem C5_absent_placeholder_counterexample :
    ¬ ∀ (m : GoString) (before after : List (GoString × GoString)) (n v : GoString),
        ((before ++ (n, v) :: after).map Prod.fst).Nodup → ¬ placeholder n <:+: m →
        substitute m (before ++ (n, v) :: after) = substitute m (before ++ after) := by
  intro h
  have := h "\x7ba\x7d".toList [("a".toList, "\x7bb\x7d".toList)] []
    "b".toList "x".toList (by decide)
    (by
      intro hi
      have hmem : Char.ofNat 98 ∈ "\x7ba\x7d".toList := hi.subset (by decide)
      revert hmem
      decide)
  revert this
  decide

/-- C5, amended: an entry `n` whose placeholder does not occur in the message the
loop has reached when it visits `n` can be removed without changing the result;
on a template whose braces are not nested, with pairwise different names and with
names and values free of braces, it is enough that `"{" + n + "}"` does not occur
in the resolved message, whatever the order of the entries with and without `n`. -/
theorem C5_absent_placeholder_ignored (m : GoString)
    (before after : List (GoString × GoString)) (n v : GoString) :
    (¬ placeholder n <:+: substitute m before →
      substitute m (before ++ (n, v) :: after) = substitute m (before ++ after)) ∧
    (((before ++ (n, v) :: after).map Prod.fst).Nodup →
      plainEntries (before ++ (n, v) :: after) → flat m = true →
      ¬ placeholder n <:+: m →
      ∀ ps qs : List (GoString × GoString),
        ps.Perm (before ++ (n, v) :: after) → qs.Perm (before ++ after) →
        substitute m ps = substitute m qs) := by
  constructor
  · intro habsent
    rw [substitute_append, substitute_cons, substitute_append,
      ReplaceAll_of_absent _ v (placeholder_ne_nil n) _ habsent]
  · intro hnames hplain hflat habsent ps qs hps hqs
    have hperm : (before ++ (n, v) :: after).Perm ((n, v) :: qs) :=
      List.perm_middle.trans (List.Perm.cons _ hqs.symm)
    rw [← substitute_perm hps.symm hplain hnames m hflat,
      substitute_perm hperm hplain hnames m hflat, substitute_cons,
      ReplaceAll_of_absent _ v (placeholder_ne_nil n) _ habsent]

/-- C5, amended, at a concrete input: `Hello {a}` with `a: "Ann"` and an unused
entry `b: "Bob"`. -/
theorem C5_absent_placeholder_ignored_witness :
    ((([("a".toList, "Ann".toList)] ++ ("b".toList, "Bob".toList) :: []).map Prod.fst).Nodup ∧
      plainEntries ([("a".toList, "Ann".toList)] ++ ("b".toList, "Bob".toList) :: []) ∧
      flat "Hello \x7ba\x7d".toList = true ∧
      ¬ placeholder "b".toList <:+: "Hello \x7ba\x7d".toList) ∧
    substitute "Hello \x7ba\x7d".toList
        [("b".toList, "Bob".toList), ("a".toList, "Ann".toList)] =
      substitute "Hello \x7ba\x7d".toList [("a".toList, "Ann".toList)] :=
  have habsent : ¬ placeholder "b".toList <:+: "Hello \x7ba\x7d".toList := by
    intro hi
    have hmem : Char.ofNat 98 ∈ "Hello \x7ba\x7d".toList := hi.subset (by decide)
    revert hmem
    decide
  ⟨⟨by decide, by decide, by decide, habsent⟩,
    (C5_absent_placeholder_ignored "Hello \x7ba\x7d".toList
      [("a".toList, "Ann".toList)] [] "b".toList "Bob".toList).2
      (by decide) (by decide) (by decide) habsent
      [("b".toList, "Bob".toList), ("a".toList, "Ann".toList)]
      [("a".toList, "Ann".toList)] (List.Perm.swap _ _ _) (List.Perm.refl _)⟩

/-- C6, as stated, fails: the template `{x}y}` holds `{x}`, the map has no entry
named `x`, and its entry named `x}y` with an empty value leaves the empty text. -/
theorem C6_unmatched_placeholder_counterexample :
    ¬ ∀ (m x : GoString) (ps : List (GoString × GoString)),
        (∀ e ∈ ps, e.1 ≠ x) → (ps.map Prod.fst).Nodup →
        occurrences (placeholder x) m ≤ occurrences (placeholder x) (substitute m ps) := by
  intro h
  have := h "\x7bx\x7dy\x7d".toList "x".toList [("x\x7dy".toList, [])]
    (by decide) (by decide)
  revert this
  decide

/-- C6, amended: when the name `x` and the names of the entries are free of braces
and no entry is named `x`, the result of the loop holds at least as many
occurrences of `"{" + x + "}"` as the resolved message, for every message and all
values. -/
theorem C6_unmatched_placeholder_kept (m x : GoString) (ps : List (GoString × GoString))
    (hx : braceFree x) (hnames : ∀ e ∈ ps, braceFree e.1) (habsent : ∀ e ∈ ps, e.1 ≠ x) :
    occurrences (placeholder x) m ≤ occurrences (placeholder x) (substitute m ps) ∧
    (∀ (t : memTranslator) (locale key : GoString), t.Resolve locale key = m →
      occurrences (placeholder x) m ≤
        occurrences (placeholder x) (t.Translate locale key ps)) ∧
    (∀ (js : JsonLib) (d : JsonDriver) (locale key : GoString), d.Resolve js locale key = m →
      occurrences (placeholder x) m ≤
        occurrences (placeholder x) (d.Translate js locale key ps)) := by
  have h := occurrences_le_substitute x hx ps m (fun e he => ⟨habsent e he, hnames e he⟩)
  refine ⟨h, fun t locale key hm => ?_, fun js d locale key hm => ?_⟩
  · simpa only [memTranslator.Translate, hm] using h
  · simpa only [JsonDriver.Translate, hm] using h

/-- C6, amended, at a concrete input: `{x} and {a}` with the one entry `a: "{x}"`. -/
theorem C6_unmatched_placeholder_kept_witness :
    (braceFree "x".toList ∧
      (∀ e ∈ [("a".toList, "\x7bx\x7d".toList)], braceFree e.1) ∧
      (∀ e ∈ [("a".toList, "\x7bx\x7d".toList)], e.1 ≠ "x".toList)) ∧
    occurrences (placeholder "x".toList) "\x7bx\x7d and \x7ba\x7d".toList ≤
      occurrences (placeholder "x".toList)
        (substitute "\x7bx\x7d and \x7ba\x7d".toList [("a".toList, "\x7bx\x7d".toList)]) :=
  ⟨⟨by decide, by decide, by decide⟩,
    (C6_unmatched_placeholder_kept "\x7bx\x7d and \x7ba\x7d".toList "x".toList
      [("a".toList, "\x7bx\x7d".toList)] (by decide) (by decide) (by decide)).1⟩

/-! ## C7: `ResolveStruct` -/

/-- C7: for both backends, a subject that implements `Translatable` and whose
`GetTranslation locale key` is not empty decides the result of `ResolveStruct`;
with an empty override, or a subject that is not `Translatable`, `ResolveStruct`
is `Resolve`. -/
theorem C7_resolveStruct_override (js : JsonLib) (t : memTranslator) (d : JsonDriver)
    (locale key : GoString) :
    (∀ tr : Translatable, tr.GetTranslation locale key ≠ [] →
      t.ResolveStruct (Subject.translatable tr) locale key = tr.GetTranslation locale key ∧
      d.ResolveStruct js (Subject.translatable tr) locale key =
        tr.GetTranslation locale key) ∧
    (∀ tr : Translatable, tr.GetTranslation locale key = [] →
      t.ResolveStruct (Subject.translatable tr) locale key = t.Resolve locale key ∧
      d.ResolveStruct js (Subject.translatable tr) locale key = d.Resolve js locale key) ∧
    t.ResolveStruct Subject.other locale key = t.Resolve locale key ∧
    d.ResolveStruct js Subject.other locale key = d.Resolve js locale key := by
  refine ⟨fun tr h => ?_, fun tr h => ?_, rfl, rfl⟩
  · simp [memTranslator.ResolveStruct, JsonDriver.ResolveStruct, resolveTranslatable, h]
  · simp [memTranslator.ResolveStruct, JsonDriver.ResolveStruct, resolveTranslatable, h]

/-! ## C8, C9: the file-backed backend after loading -/

/-- C8: `Register` on the file-backed driver changes none of `fallback`, `dir` and
`jsonData`, and every `Resolve` returns what it returned before. -/
theorem C8_json_register_noop (js : JsonLib) (t : JsonDriver)
    (locale key message : GoString) :
    (t.Register locale key message).fallback = t.fallback ∧
    (t.Register locale key message).dir = t.dir ∧
    (t.Register locale key message).jsonData = t.jsonData ∧
    ∀ l k : GoString, (t.Register locale key message).Resolve js l k = t.Resolve js l k :=
  ⟨rfl, rfl, rfl, fun _ _ => rfl⟩

/-- C9: the file-backed `Resolve` asks `gjson.Get` for the path
`locale + "." + key`; a value that exists is returned as a string, and nothing else
is asked; otherwise the path `fallback + "." + key` is asked, once, and its value is
returned when it exists, the empty string when it does not. -/
theorem C9_json_resolve (js : JsonLib) (t : JsonDriver) (locale key : GoString) :
    (∀ s : GoString, js.Get t.jsonData (locale ++ ".".toList ++ key) = some s →
      t.Resolve js locale key = s ∧
      (t.ResolveQueries js locale key).2 = [locale ++ ".".toList ++ key]) ∧
    (js.Get t.jsonData (locale ++ ".".toList ++ key) = none →
      (∀ s : GoString, js.Get t.jsonData (t.fallback ++ ".".toList ++ key) = some s →
        t.Resolve js locale key = s) ∧
      (js.Get t.jsonData (t.fallback ++ ".".toList ++ key) = none →
        t.Resolve js locale key = []) ∧
      (t.ResolveQueries js locale key).2 =
        [locale ++ ".".toList ++ key, t.fallback ++ ".".toList ++ key]) ∧
    (t.ResolveQueries js locale key).2.length ≤ 2 := by
  refine ⟨fun s h => ?_, fun h => ⟨fun s h' => ?_, fun h' => ?_, ?_⟩, ?_⟩
  · simp only [JsonDriver.Resolve, JsonDriver.ResolveQueries, h, and_self]
  · simp only [JsonDriver.Resolve, JsonDriver.ResolveQueries, h, h']
  · simp only [JsonDriver.Resolve, JsonDriver.ResolveQueries, h, h']
  · cases h' : js.Get t.jsonData (t.fallback ++ ".".toList ++ key) <;>
      simp only [JsonDriver.ResolveQueries, h, h']
  · cases h : js.Get t.jsonData (locale ++ ".".toList ++ key) <;>
      cases h' : js.Get t.jsonData (t.fallback ++ ".".toList ++ key) <;>
      simp only [JsonDriver.ResolveQueries, h, h', List.length_cons, List.length_nil] <;>
      omega

/-! ## C10: the text stored by `Load` -/

/-- C10, at the failing input: with a locale directory `en` holding `{"a":"Y"}` and a
root file holding the empty object `{}`, every file is valid JSON and `Load`
returns no error, yet the text it stores, `{"en":{"a":"Y"},}`, is not valid JSON,
while the same text without the comma is. -/
theorem C10_load_stores_invalid_json (js : JsonLib) (t : JsonDriver)
    (hvalid : ∀ s : GoString, js.Valid s = validJson s)
    (hreencode : js.Reencode "\x7b\x7d".toList = Except.ok "\x7b\x7d".toList) :
    JsonDriver.Load emptyRootLayout js t =
      ({ t with jsonData := "\x7b\"en\":\x7b\"a\":\"Y\"\x7d,\x7d".toList }, none) ∧
    validJson "\x7b\"a\":\"Y\"\x7d".toList = true ∧
    validJson "\x7b\x7d".toList = true ∧
    validJson "\x7b\"en\":\x7b\"a\":\"Y\"\x7d,\x7d".toList = false ∧
    validJson "\x7b\"en\":\x7b\"a\":\"Y\"\x7d\x7d".toList = true := by
  have h1 : validJson "\x7b\"a\":\"Y\"\x7d".toList = true := by decide
  have h2 : validJson "\x7b\x7d".toList = true := by decide
  refine ⟨?_, h1, h2, by decide, by decide⟩
  have hen : localeFragments emptyRootLayout js t.dir "en".toList =
      Except.ok ["\"en\":\x7b\"a\":\"Y\"\x7d".toList] := by
    have hne : ("en".toList = []) = False := by simp
    simp only [localeFragments, resolveFiles, emptyRootLayout, hne, if_false, resolveFilesLoop,
      hvalid, h1, mapSet, member]
    rfl
  have hroot : localeFragments emptyRootLayout js t.dir [] = Except.ok [[]] := by
    simp only [localeFragments, resolveFiles, emptyRootLayout, if_true, resolveFilesLoop,
      hvalid, h2, mapSet, unwrapJson, Bool.not_true, Bool.false_eq_true, if_false, hreencode]
    rfl
  simp only [JsonDriver.Load, emptyRootLayout]
  show (match loadLoop emptyRootLayout js t.dir ["en".toList, []] [] with
    | Except.error err => (t, some err)
    | Except.ok contents =>
      ({ t with jsonData := [lbrace] ++ Join contents ",".toList ++ [rbrace] }, none)) = _
  simp only [loadLoop, hen, hroot]
  rfl

/-- C10 at a library whose `Valid` is the grammar and that re-encodes a text as it is. -/
theorem C10_load_stores_invalid_json_witness :
    (JsonDriver.Load emptyRootLayout
        { Valid := validJson, Get := fun _ _ => none, Reencode := fun s => Except.ok s }
        { fallback := "en".toList, dir := "lang".toList, jsonData := [] }).2 = none ∧
    validJson (JsonDriver.Load emptyRootLayout
        { Valid := validJson, Get := fun _ _ => none, Reencode := fun s => Except.ok s }
        { fallback := "en".toList, dir := "lang".toList, jsonData := [] }).1.jsonData = false :=
  have h := C10_load_stores_invalid_json
    { Valid := validJson, Get := fun _ _ => none, Reencode := fun s => Except.ok s }
    { fallback := "en".toList, dir := "lang".toList, jsonData := [] }
    (fun _ => rfl) rfl
  ⟨by rw [h.1], by rw [h.1]; exact h.2.2.2.1⟩

/-! ## C16, C17, C18: the in-memory store -/

theorem call_fallback (t : memTranslator) (c : memCall) : (t.call c).1.fallback = t.fallback := by
  cases c <;> rfl

theorem call_records (t : memTranslator) (c : memCall) :
    t.records <+: (t.call c).1.records := by
  cases c with
  | Register locale key message => exact List.prefix_append _ _
  | Resolve _ _ => exact List.prefix_refl _
  | ResolveStruct _ _ _ => exact List.prefix_refl _
  | Translate _ _ _ => exact List.prefix_refl _
  | TranslateStruct _ _ _ _ => exact List.prefix_refl _

theorem callAll_invariant (calls : List memCall) :
    ∀ t : memTranslator,
      (t.callAll calls).fallback = t.fallback ∧ t.records <+: (t.callAll calls).records := by
  induction calls with
  | nil => intro t; exact ⟨rfl, List.prefix_refl _⟩
  | cons c cs ih =>
    intro t
    obtain ⟨h1, h2⟩ := ih (t.call c).1
    exact ⟨h1.trans (call_fallback t c), (call_records t c).trans h2⟩

/-- C16: `Register` leaves the fallback as it is, keeps every record at its position
and adds the one record `(locale, key, message)` at the end; a call of `Resolve`,
`ResolveStruct`, `Translate` or `TranslateStruct` leaves the translator as it is;
so after any sequence of calls the fallback is the same and the records of before
are the first records of after. -/
theorem C16_memory_append_only (t : memTranslator) (locale key message : GoString) :
    (t.Register locale key message).fallback = t.fallback ∧
    (t.Register locale key message).records =
      t.records ++ [{ locale := locale, key := key, message := message }] ∧
    (∀ i : Nat, i < t.records.length →
      (t.Register locale key message).records[i]? = t.records[i]?) ∧
    (t.Register locale key message).records.length = t.records.length + 1 ∧
    (∀ c : memCall, (∀ l k m : GoString, c ≠ memCall.Register l k m) → (t.call c).1 = t) ∧
    (∀ calls : List memCall,
      (t.callAll calls).fallback = t.fallback ∧ t.records <+: (t.callAll calls).records) := by
  refine ⟨rfl, rfl, fun i hi => ?_, ?_, fun c hc => ?_, fun calls => callAll_invariant calls t⟩
  · simp only [memTranslator.Register]
    exact List.getElem?_append_left hi
  · simp [memTranslator.Register]
  · cases c with
    | Register l k m => exact absurd rfl (hc l k m)
    | Resolve _ _ => rfl
    | ResolveStruct _ _ _ => rfl
    | Translate _ _ _ => rfl
    | TranslateStruct _ _ _ _ => rfl

/-- C17: what `Resolve locale key` returns is the empty string or the message of a
record whose key is `key` and whose locale is `locale` or the fallback. -/
theorem C17_resolve_sound (t : memTranslator) (locale key : GoString) :
    t.Resolve locale key = [] ∨
    ∃ r ∈ t.records, r.key = key ∧ (r.locale = locale ∨ r.locale = t.fallback) ∧
      r.message = t.Resolve locale key := by
  rw [Resolve_eq]
  cases h : memTranslator.scan t.records locale key with
  | some m =>
    obtain ⟨r, hr, hl, hk, hm⟩ := scan_mem t.records locale key m h
    exact Or.inr ⟨r, hr, hk, Or.inl hl, hm⟩
  | none =>
    cases h' : memTranslator.scan t.records t.fallback key with
    | some m =>
      obtain ⟨r, hr, hl, hk, hm⟩ := scan_mem t.records t.fallback key m h'
      exact Or.inr ⟨r, hr, hk, Or.inr hl, hm⟩
    | none => exact Or.inl rfl

/-- C18: when the first record for `(locale, key)` has the empty message,
`Resolve locale key` is the empty string, whatever is registered for the fallback;
`ResolveStruct` with a subject whose override is empty is `Resolve`, for every
locale, so there an empty string does not stop the lookup. -/
theorem C18_empty_message_shadows (t : memTranslator) (locale key : GoString)
    (before after : List record)
    (hrecords : t.records = before ++ { locale := locale, key := key, message := [] } :: after)
    (hfirst : ∀ r ∈ before, ¬ (r.locale = locale ∧ r.key = key)) :
    t.Resolve locale key = [] ∧
    ∀ (tr : Translatable) (l : GoString), tr.GetTranslation l key = [] →
      t.ResolveStruct (Subject.translatable tr) l key = t.Resolve l key := by
  constructor
  · apply Resolve_of_scan_some
    rw [hrecords, scan_append, (scan_eq_none_iff before locale key).2 hfirst]
    simp [memTranslator.scan]
  · intro tr l h
    simp [memTranslator.ResolveStruct, resolveTranslatable, h]

/-- C18 at a concrete input: `fr/hi` registered as the empty string, `en/hi` as `Hi`,
fallback `en`; the lookup for `fr` stops at the empty message, and the empty
override of a subject asked for `en` falls through to `Hi`. -/
theorem C18_empty_message_shadows_witness :
    (∀ r ∈ ([] : List record), ¬ (r.locale = "fr".toList ∧ r.key = "hi".toList)) ∧
    memTranslator.Resolve
        { fallback := "en".toList,
          records := [{ locale := "fr".toList, key := "hi".toList, message := [] },
                      { locale := "en".toList, key := "hi".toList, message := "Hi".toList }] }
        "fr".toList "hi".toList = [] ∧
    memTranslator.ResolveStruct
        { fallback := "en".toList,
          records := [{ locale := "fr".toList, key := "hi".toList, message := [] },
                      { locale := "en".toList, key := "hi".toList, message := "Hi".toList }] }
        (Subject.translatable { GetTranslation := fun _ _ => [] })
        "en".toList "hi".toList = "Hi".toList :=
  have h := C18_empty_message_shadows
    { fallback := "en".toList,
      records := [{ locale := "fr".toList, key := "hi".toList, message := [] },
                  { locale := "en".toList, key := "hi".toList, message := "Hi".toList }] }
    "fr".toList "hi".toList []
    [{ locale := "en".toList, key := "hi".toList, message := "Hi".toList }] rfl (by decide)
  ⟨by decide, h.1, by
    rw [h.2 { GetTranslation := fun _ _ => [] } "en".toList rfl, Resolve_eq]
    decide⟩

/-! ## C14, C15: errors of `Load` -/

theorem resolveFilesLoop_invalid (js : JsonLib) :
    ∀ (files : List SourceFile) (res : List (GoString × GoString)),
      (∃ f ∈ files, ∃ content, f.read = Except.ok content ∧ js.Valid content = false) →
      ∃ err, resolveFilesLoop js files res = Except.error err := by
  intro files
  induction files with
  | nil =>
    rintro res ⟨f, hf, _⟩
    simp at hf
  | cons g rest ih =>
    rintro res ⟨f, hf, content, hread, hinvalid⟩
    cases hg : g.read with
    | error e => exact ⟨e, by simp only [resolveFilesLoop, hg]⟩
    | ok c =>
      cases hv : js.Valid c with
      | false =>
        exact ⟨{ message := "Invalid json for ".toList ++ g.filePath }, by
          simp only [resolveFilesLoop, hg, hv, Bool.not_false, if_true]⟩
      | true =>
        have hrest : ∃ f ∈ rest, ∃ content, f.read = Except.ok content ∧
            js.Valid content = false := by
          rcases List.mem_cons.1 hf with hfg | hfr
          · subst hfg
            rw [hg] at hread
            cases hread
            rw [hv] at hinvalid
            cases hinvalid
          · exact ⟨f, hfr, content, hread, hinvalid⟩
        obtain ⟨err, herr⟩ := ih (mapSet res g.fileName c) hrest
        exact ⟨err, by
          simp only [resolveFilesLoop, hg, hv, Bool.not_true, Bool.false_eq_true, if_false]
          exact herr⟩

theorem localeFragments_invalid (fs : FileSystem) (js : JsonLib) (dir locale : GoString)
    (h : ∃ f ∈ fs.jsonFiles dir locale, ∃ content,
      f.read = Except.ok content ∧ js.Valid content = false) :
    ∃ err, localeFragments fs js dir locale = Except.error err := by
  obtain ⟨err, herr⟩ := resolveFilesLoop_invalid js (fs.jsonFiles dir locale) [] h
  exact ⟨err, by simp only [localeFragments, resolveFiles, herr]⟩

theorem loadLoop_error (fs : FileSystem) (js : JsonLib) (dir : GoString) :
    ∀ (locales : List GoString) (contents : List GoString),
      (∃ locale ∈ locales, ∃ err, localeFragments fs js dir locale = Except.error err) →
      ∃ err, loadLoop fs js dir locales contents = Except.error err := by
  intro locales
  induction locales with
  | nil =>
    rintro contents ⟨l, hl, _⟩
    simp at hl
  | cons l rest ih =>
    rintro contents ⟨locale, hmem, err, herr⟩
    cases hl : localeFragments fs js dir l with
    | error e => exact ⟨e, by simp only [loadLoop, hl]⟩
    | ok fragments =>
      have hrest : ∃ locale ∈ rest, ∃ err,
          localeFragments fs js dir locale = Except.error err := by
        rcases List.mem_cons.1 hmem with h | h
        · subst h
          rw [hl] at herr
          cases herr
        · exact ⟨locale, h, err, herr⟩
      obtain ⟨e, he⟩ := ih (contents ++ fragments) hrest
      exact ⟨e, by simp only [loadLoop, hl]; exact he⟩

theorem Load_error_of_loop (fs : FileSystem) (js : JsonLib) (dir : GoString)
    (h : ∀ locales, fs.subDirectories dir = Except.ok locales →
      ∃ err, loadLoop fs js dir (locales ++ [[]]) [] = Except.error err) :
    ∃ err, ∀ t : JsonDriver, t.dir = dir → JsonDriver.Load fs js t = (t, some err) := by
  cases hsub : fs.subDirectories dir with
  | error e =>
    refine ⟨e, fun t ht => ?_⟩
    subst ht
    simp only [JsonDriver.Load, hsub]
  | ok locales =>
    obtain ⟨err, herr⟩ := h locales hsub
    refine ⟨err, fun t ht => ?_⟩
    subst ht
    simp only [JsonDriver.Load, hsub, herr]

/-- C14: when a file of the root (`locale` empty) or of an immediate subdirectory
fails the JSON validation, `Load` returns an error, the same for every driver on
that directory, and `NewJsonTranslator` returns no translator and that error. -/
theorem C14_invalid_file_fails (fs : FileSystem) (js : JsonLib)
    (fallbackLocale dir locale : GoString) (f : SourceFile) (content : GoString)
    (hscanned : ∀ locales, fs.subDirectories dir = Except.ok locales →
      locale ∈ locales ++ [[]])
    (hfile : f ∈ fs.jsonFiles dir locale) (hread : f.read = Except.ok content)
    (hinvalid : js.Valid content = false) :
    ∃ err : GoError,
      (∀ t : JsonDriver, t.dir = dir → JsonDriver.Load fs js t = (t, some err)) ∧
      NewJsonTranslator fs js fallbackLocale dir = (none, some err) := by
  obtain ⟨err, herr⟩ := Load_error_of_loop fs js dir (fun locales hsub =>
    loadLoop_error fs js dir (locales ++ [[]]) []
      ⟨locale, hscanned locales hsub,
        localeFragments_invalid fs js dir locale ⟨f, hfile, content, hread, hinvalid⟩⟩)
  refine ⟨err, herr, ?_⟩
  simp only [NewJsonTranslator, JsonDriver.init]
  rw [herr _ rfl]

/-- C14 at a concrete input: the one file of the root holds `{`. -/
theorem C14_invalid_file_fails_witness :
    ((∀ locales, (rootFileLayout "\x7b".toList).subDirectories "lang".toList =
          Except.ok locales → ([] : GoString) ∈ locales ++ [[]]) ∧
      validJson "\x7b".toList = false) ∧
    ∃ err : GoError,
      NewJsonTranslator (rootFileLayout "\x7b".toList) plainLib "en".toList "lang".toList =
        (none, some err) :=
  have h := C14_invalid_file_fails (rootFileLayout "\x7b".toList) plainLib
    "en".toList "lang".toList []
    { filePath := "lang".toList ++ "/default.json".toList, fileName := "default".toList,
      read := Except.ok "\x7b".toList }
    "\x7b".toList (fun _ _ => by simp) (List.mem_singleton.2 rfl) rfl (by decide)
  ⟨⟨fun _ _ => by simp, by decide⟩, h.elim fun err herr => ⟨err, herr.2⟩⟩

/-- C15: when `Load` returns an error, the driver behind the call is the driver
before it: `jsonData`, `fallback` and `dir` are the same and so is every `Resolve`. -/
theorem C15_failed_load_keeps_state (fs : FileSystem) (js : JsonLib) (t : JsonDriver)
    (err : GoError) (hfail : (JsonDriver.Load fs js t).2 = some err) :
    (JsonDriver.Load fs js t).1 = t ∧
    (JsonDriver.Load fs js t).1.jsonData = t.jsonData ∧
    (JsonDriver.Load fs js t).1.fallback = t.fallback ∧
    (JsonDriver.Load fs js t).1.dir = t.dir ∧
    ∀ l k : GoString, (JsonDriver.Load fs js t).1.Resolve js l k = t.Resolve js l k := by
  have h : (JsonDriver.Load fs js t).1 = t := by
    cases hsub : fs.subDirectories t.dir with
    | error e => simp only [JsonDriver.Load, hsub]
    | ok locales =>
      cases hloop : loadLoop fs js t.dir (locales ++ [[]]) [] with
      | error e => simp only [JsonDriver.Load, hsub, hloop]
      | ok contents =>
        simp only [JsonDriver.Load, hsub, hloop] at hfail
        cases hfail
  exact ⟨h, by rw [h], by rw [h], by rw [h], fun l k => by rw [h]⟩

/-- C15 at a concrete input: a driver that holds `{"en":{"a":"Y"}}` reloads a
directory whose one file holds `{`. -/
theorem C15_failed_load_keeps_state_witness :
    ∃ err : GoError,
      (JsonDriver.Load (rootFileLayout "\x7b".toList) plainLib
          { fallback := "en".toList, dir := "lang".toList,
            jsonData := "\x7b\"en\":\x7b\"a\":\"Y\"\x7d\x7d".toList }).2 = some err ∧
      (JsonDriver.Load (rootFileLayout "\x7b".toList) plainLib
          { fallback := "en".toList, dir := "lang".toList,
            jsonData := "\x7b\"en\":\x7b\"a\":\"Y\"\x7d\x7d".toList }).1.jsonData =
        "\x7b\"en\":\x7b\"a\":\"Y\"\x7d\x7d".toList :=
  ⟨{ message := "Invalid json for ".toList ++ ("lang".toList ++ "/default.json".toList) },
    by decide,
    (C15_failed_load_keeps_state (rootFileLayout "\x7b".toList) plainLib
      { fallback := "en".toList, dir := "lang".toList,
        jsonData := "\x7b\"en\":\x7b\"a\":\"Y\"\x7d\x7d".toList }
      { message := "Invalid json for ".toList ++ ("lang".toList ++ "/default.json".toList) }
      (by decide)).2.1⟩

/-! ## C11, C12, C13: the shape of the aggregate -/

theorem mapSet_new (k v : GoString) :
    ∀ res : List (GoString × GoString), k ∉ res.map Prod.fst →
      mapSet res k v = res ++ [(k, v)] := by
  intro res
  induction res with
  | nil => intro _; rfl
  | cons e res ih =>
    intro h
    obtain ⟨k', v'⟩ := e
    have hne : ¬ k' = k := fun hk => h (by simp [hk])
    have hrest : k ∉ res.map Prod.fst := fun hk => h (by simp [hk])
    simp only [mapSet, hne, if_false, ih hrest, List.cons_append]

/-- When every file is read without error, is valid and has a name of its own, the
loop of `resolveFiles` adds the files to the map as name and content, in their order. -/
theorem resolveFilesLoop_all (js : JsonLib) :
    ∀ (entries : List (GoString × GoString × GoString)) (res : List (GoString × GoString)),
      (∀ e ∈ entries, js.Valid e.2.2 = true) →
      (res.map Prod.fst ++ entries.map (fun e => e.2.1)).Nodup →
      resolveFilesLoop js
          (entries.map (fun e =>
            ({ filePath := e.1, fileName := e.2.1, read := Except.ok e.2.2 } : SourceFile))) res =
        Except.ok (res ++ entries.map (fun e => (e.2.1, e.2.2))) := by
  intro entries
  induction entries with
  | nil => intro res _ _; simp [resolveFilesLoop]
  | cons e rest ih =>
    intro res hvalid hnames
    have hv : js.Valid e.2.2 = true := hvalid e (List.mem_cons_self _ _)
    have hnew : e.2.1 ∉ res.map Prod.fst := by
      intro hmem
      have := (List.nodup_append.1 hnames).2.2
      exact this hmem (by simp)
    have hnames' : ((mapSet res e.2.1 e.2.2).map Prod.fst ++
        rest.map (fun e => e.2.1)).Nodup := by
      rw [mapSet_new _ _ res hnew]
      simpa using hnames
    simp only [List.map_cons, resolveFilesLoop, hv, Bool.not_true, Bool.false_eq_true, if_false]
    rw [ih (mapSet res e.2.1 e.2.2) (fun e' he' => hvalid e' (List.mem_cons_of_mem _ he'))
      hnames', mapSet_new _ _ res hnew]
    simp

theorem resolveFiles_all (fs : FileSystem) (js : JsonLib) (dir locale : GoString)
    (entries : List (GoString × GoString × GoString))
    (hfiles : fs.jsonFiles dir locale = entries.map (fun e =>
      ({ filePath := e.1, fileName := e.2.1, read := Except.ok e.2.2 } : SourceFile)))
    (hvalid : ∀ e ∈ entries, js.Valid e.2.2 = true)
    (hnames : (entries.map (fun e => e.2.1)).Nodup) :
    resolveFiles fs js dir locale = Except.ok (entries.map (fun e => (e.2.1, e.2.2))) := by
  rw [resolveFiles, hfiles, resolveFilesLoop_all js entries [] hvalid (by simpa using hnames)]
  simp

theorem Load_multiFile (js : JsonLib) (t : JsonDriver) (errorsFirst : Bool)
    (h1 : js.Valid "\x7b\"hi\":\"Hi\"\x7d".toList = true)
    (h2 : js.Valid "\x7b\"404\":\"Not found\"\x7d".toList = true) :
    JsonDriver.Load (multiFileLayout errorsFirst) js t =
      ({ t with jsonData :=
          if errorsFirst then
            "\x7b\"errors\":\x7b\"404\":\"Not found\"\x7d,\"greetings\":\x7b\"hi\":\"Hi\"\x7d\x7d".toList
          else
            "\x7b\"greetings\":\x7b\"hi\":\"Hi\"\x7d,\"errors\":\x7b\"404\":\"Not found\"\x7d\x7d".toList },
        none) := by
  cases errorsFirst
  · have hroot : localeFragments (multiFileLayout false) js t.dir [] =
        Except.ok ["\"greetings\":\x7b\"hi\":\"Hi\"\x7d".toList,
          "\"errors\":\x7b\"404\":\"Not found\"\x7d".toList] := by
      simp only [localeFragments, resolveFiles, multiFileLayout, resolveFilesLoop, h1, h2,
        Bool.not_true, Bool.false_eq_true, if_false]
      rfl
    simp only [JsonDriver.Load, multiFileLayout]
    show (match loadLoop (multiFileLayout false) js t.dir [[]] [] with
      | Except.error err => (t, some err)
      | Except.ok contents =>
        ({ t with jsonData := [lbrace] ++ Join contents ",".toList ++ [rbrace] }, none)) = _
    simp only [loadLoop, hroot]
    rfl
  · have hroot : localeFragments (multiFileLayout true) js t.dir [] =
        Except.ok ["\"errors\":\x7b\"404\":\"Not found\"\x7d".toList,
          "\"greetings\":\x7b\"hi\":\"Hi\"\x7d".toList] := by
      simp only [localeFragments, resolveFiles, multiFileLayout, resolveFilesLoop, h1, h2,
        Bool.not_true, Bool.false_eq_true, if_false, if_true]
      rfl
    simp only [JsonDriver.Load, multiFileLayout]
    show (match loadLoop (multiFileLayout true) js t.dir [[]] [] with
      | Except.error err => (t, some err)
      | Except.ok contents =>
        ({ t with jsonData := [lbrace] ++ Join contents ",".toList ++ [rbrace] }, none)) = _
    simp only [loadLoop, hroot]
    rfl

theorem Load_roundTrip (js : JsonLib) (t : JsonDriver)
    (h1 : js.Valid "\x7b\"a\":\"Y\"\x7d".toList = true)
    (h2 : js.Valid "\x7b\"a\":\"X\"\x7d".toList = true)
    (hreencode : js.Reencode "\x7b\"a\":\"X\"\x7d".toList =
      Except.ok "\x7b\"a\":\"X\"\x7d".toList) :
    JsonDriver.Load roundTripLayout js t =
      ({ t with jsonData := "\x7b\"en\":\x7b\"a\":\"Y\"\x7d,\"a\":\"X\"\x7d".toList }, none) := by
  have hen : localeFragments roundTripLayout js t.dir "en".toList =
      Except.ok ["\"en\":\x7b\"a\":\"Y\"\x7d".toList] := by
    have hne : ("en".toList = []) = False := by simp
    simp only [localeFragments, resolveFiles, roundTripLayout, hne, if_false, resolveFilesLoop,
      h1, mapSet, member]
    rfl
  have hroot : localeFragments roundTripLayout js t.dir [] =
      Except.ok ["\"a\":\"X\"".toList] := by
    simp only [localeFragments, resolveFiles, roundTripLayout, if_true, resolveFilesLoop,
      h2, mapSet, unwrapJson, Bool.not_true, Bool.false_eq_true, if_false, hreencode]
    rfl
  simp only [JsonDriver.Load, roundTripLayout]
  show (match loadLoop roundTripLayout js t.dir ["en".toList, []] [] with
    | Except.error err => (t, some err)
    | Except.ok contents =>
      ({ t with jsonData := [lbrace] ++ Join contents ",".toList ++ [rbrace] }, none)) = _
  simp only [loadLoop, hen, hroot]
  rfl

/-- C13, as stated, fails: with the directory of the example, the library
`plainLib` and the empty fallback locale, `Resolve("fr","a")` is not `X`. -/
theorem C13_empty_fallback_counterexample :
    ¬ (JsonDriver.Load roundTripLayout plainLib
          { fallback := [], dir := "lang".toList, jsonData := [] }).1.Resolve plainLib
        "fr".toList "a".toList = "X".toList := by
  decide

/-- C13, amended: with root `default.json` = `{"a":"X"}`, `en/default.json` =
`{"a":"Y"}` and the empty fallback locale, `Resolve("fr","a")` asks for the paths
`fr.a` and `.a` and returns the empty string: the first segment of `.a` is the empty
name, and the aggregate has no member of that name.  The root-level key `a` is what
the path `a` gives, so it is read as the first segment of a path, where `Resolve`
puts the locale. -/
theorem C13_empty_fallback_misses_root (js : JsonLib) (dirName old : GoString)
    (hvalid : ∀ s : GoString, js.Valid s = validJson s)
    (hget : ∀ d q : GoString, js.Get d q = pathGet d q)
    (hreencode : js.Reencode "\x7b\"a\":\"X\"\x7d".toList =
      Except.ok "\x7b\"a\":\"X\"\x7d".toList) :
    (JsonDriver.Load roundTripLayout js
        { fallback := [], dir := dirName, jsonData := old }).2 = none ∧
    (JsonDriver.Load roundTripLayout js
        { fallback := [], dir := dirName, jsonData := old }).1.Resolve js
      "fr".toList "a".toList = [] ∧
    ((JsonDriver.Load roundTripLayout js
        { fallback := [], dir := dirName, jsonData := old }).1.ResolveQueries js
      "fr".toList "a".toList).2 = ["fr.a".toList, ".a".toList] ∧
    js.Get (JsonDriver.Load roundTripLayout js
        { fallback := [], dir := dirName, jsonData := old }).1.jsonData "a".toList =
      some "X".toList ∧
    js.Get (JsonDriver.Load roundTripLayout js
        { fallback := [], dir := dirName, jsonData := old }).1.jsonData ".a".toList = none := by
  have hfr : pathGet "\x7b\"en\":\x7b\"a\":\"Y\"\x7d,\"a\":\"X\"\x7d".toList
      ("fr".toList ++ ".".toList ++ "a".toList) = none := by decide
  have hdot : pathGet "\x7b\"en\":\x7b\"a\":\"Y\"\x7d,\"a\":\"X\"\x7d".toList
      ([] ++ ".".toList ++ "a".toList) = none := by decide
  rw [Load_roundTrip js _ (by rw [hvalid]; decide) (by rw [hvalid]; decide) hreencode]
  refine ⟨rfl, ?_, ?_, ?_, ?_⟩
  · simp only [JsonDriver.Resolve, JsonDriver.ResolveQueries, hget, hfr, hdot]
  · simp only [JsonDriver.ResolveQueries, hget, hfr, hdot]
    rfl
  · rw [hget]
    show pathGet "\x7b\"en\":\x7b\"a\":\"Y\"\x7d,\"a\":\"X\"\x7d".toList "a".toList = _
    decide
  · rw [hget]
    show pathGet "\x7b\"en\":\x7b\"a\":\"Y\"\x7d,\"a\":\"X\"\x7d".toList ".a".toList = _
    decide

/-- C13, amended, at the library `plainLib`. -/
theorem C13_empty_fallback_misses_root_witness :
    (∀ s : GoString, plainLib.Valid s = validJson s) ∧
    (JsonDriver.Load roundTripLayout plainLib
        { fallback := [], dir := "lang".toList, jsonData := [] }).1.Resolve plainLib
      "fr".toList "a".toList = [] :=
  ⟨fun _ => rfl,
    (C13_empty_fallback_misses_root plainLib "lang".toList []
      (fun _ => rfl) (fun _ _ => rfl) rfl).2.1⟩

/-! ## C19: the one file of the root and the one file of a locale -/

theorem Load_rootFile_ok (js : JsonLib) (t : JsonDriver) (content jsonStr : GoString)
    (hvalid : js.Valid content = true) (hreencode : js.Reencode content = Except.ok jsonStr) :
    JsonDriver.Load (rootFileLayout content) js t =
      ({ t with jsonData :=
          [lbrace] ++ TrimSuffix (TrimPrefix jsonStr [lbrace]) [rbrace] ++ [rbrace] }, none) := by
  have hroot : localeFragments (rootFileLayout content) js t.dir [] =
      Except.ok [TrimSuffix (TrimPrefix jsonStr [lbrace]) [rbrace]] := by
    simp only [localeFragments, resolveFiles, rootFileLayout, resolveFilesLoop, hvalid, mapSet,
      unwrapJson, Bool.not_true, Bool.false_eq_true, if_false, if_true, hreencode]
  simp only [JsonDriver.Load, rootFileLayout]
  show (match loadLoop (rootFileLayout content) js t.dir [[]] [] with
    | Except.error err => (t, some err)
    | Except.ok contents =>
      ({ t with jsonData := [lbrace] ++ Join contents ",".toList ++ [rbrace] }, none)) = _
  simp only [loadLoop, hroot]
  simp [Join, List.intercalate]

theorem Load_rootFile_error (js : JsonLib) (t : JsonDriver) (content : GoString) (err : GoError)
    (hvalid : js.Valid content = true) (hreencode : js.Reencode content = Except.error err) :
    JsonDriver.Load (rootFileLayout content) js t = (t, some err) := by
  have hroot : localeFragments (rootFileLayout content) js t.dir [] = Except.error err := by
    simp only [localeFragments, resolveFiles, rootFileLayout, resolveFilesLoop, hvalid, mapSet,
      unwrapJson, Bool.not_true, Bool.false_eq_true, if_false, if_true, hreencode]
  simp only [JsonDriver.Load, rootFileLayout]
  show (match loadLoop (rootFileLayout content) js t.dir [[]] [] with
    | Except.error err => (t, some err)
    | Except.ok contents =>
      ({ t with jsonData := [lbrace] ++ Join contents ",".toList ++ [rbrace] }, none)) = _
  simp only [loadLoop, hroot]

theorem Load_localeFile (js : JsonLib) (t : JsonDriver) (locale content : GoString)
    (hlocale : locale ≠ []) (hvalid : js.Valid content = true) :
    JsonDriver.Load (localeFileLayout locale content) js t =
      ({ t with jsonData := [lbrace] ++ member locale content ++ [rbrace] }, none) := by
  have hloc : localeFragments (localeFileLayout locale content) js t.dir locale =
      Except.ok [member locale content] := by
    simp only [localeFragments, resolveFiles, localeFileLayout, hlocale, if_false,
      resolveFilesLoop, hvalid, mapSet, Bool.not_true, Bool.false_eq_true]
  have hroot : localeFragments (localeFileLayout locale content) js t.dir [] =
      Except.ok [] := by
    simp only [localeFragments, resolveFiles, localeFileLayout, if_true, resolveFilesLoop,
      List.map_nil]
  simp only [JsonDriver.Load, localeFileLayout]
  show (match loadLoop (localeFileLayout locale content) js t.dir ([locale] ++ [[]]) [] with
    | Except.error err => (t, some err)
    | Except.ok contents =>
      ({ t with jsonData := [lbrace] ++ Join contents ",".toList ++ [rbrace] }, none)) = _
  simp only [List.singleton_append, loadLoop, hloc, hroot]
  simp [Join, List.intercalate]

/-- C19, at the failing input and around it: when the one file of the root holds
`null`, which is valid JSON and no object, `Load` returns no error and stores
`{null}`, which is not valid JSON.  Where the decoding of the content into a map
fails, `Load` returns that error and stores nothing; and the same content as the
one file of a locale directory `L` is stored as it is, as the value of `L`. -/
theorem C19_root_file_not_an_object (js : JsonLib) (t : JsonDriver)
    (hvalid : ∀ s : GoString, js.Valid s = validJson s)
    (hnull : js.Reencode "null".toList = Except.ok "null".toList) :
    JsonDriver.Load (rootFileLayout "null".toList) js t =
      ({ t with jsonData := "\x7bnull\x7d".toList }, none) ∧
    validJson "null".toList = true ∧
    validJson "\x7bnull\x7d".toList = false ∧
    (∀ (content : GoString) (err : GoError), validJson content = true →
      js.Reencode content = Except.error err →
      JsonDriver.Load (rootFileLayout content) js t = (t, some err)) ∧
    (∀ locale content : GoString, locale ≠ [] → validJson content = true →
      JsonDriver.Load (localeFileLayout locale content) js t =
        ({ t with jsonData := [lbrace] ++ member locale content ++ [rbrace] }, none)) := by
  have h1 : validJson "null".toList = true := by decide
  refine ⟨?_, h1, by decide, fun content err hc hre => ?_, fun locale content hl hc => ?_⟩
  · rw [Load_rootFile_ok js t "null".toList "null".toList (by rw [hvalid, h1]) hnull]
    rfl
  · exact Load_rootFile_error js t content err (by rw [hvalid, hc]) hre
  · exact Load_localeFile js t locale content hl (by rw [hvalid, hc])

/-- C19 at the library `plainLib`: the root file `null` is accepted, the root file
`[1]` is refused, and `[1]` as the one file of `en` is stored as `{"en":[1]}`. -/
theorem C19_root_file_not_an_object_witness :
    ((∀ s : GoString, plainLib.Valid s = validJson s) ∧
      plainLib.Reencode "null".toList = Except.ok "null".toList) ∧
    (JsonDriver.Load (rootFileLayout "null".toList) plainLib
        { fallback := "en".toList, dir := "lang".toList, jsonData := [] }).2 = none ∧
    (JsonDriver.Load (rootFileLayout "[1]".toList) plainLib
        { fallback := "en".toList, dir := "lang".toList, jsonData := [] }).2 ≠ none ∧
    (JsonDriver.Load (localeFileLayout "en".toList "[1]".toList) plainLib
        { fallback := "en".toList, dir := "lang".toList, jsonData := [] }).1.jsonData =
      "\x7b\"en\":[1]\x7d".toList :=
  have h := C19_root_file_not_an_object plainLib
    { fallback := "en".toList, dir := "lang".toList, jsonData := [] } (fun _ => rfl) rfl
  ⟨⟨fun _ => rfl, rfl⟩, by rw [h.1], by
    rw [h.2.2.2.1 "[1]".toList _ (by decide) rfl]
    simp, by
    rw [h.2.2.2.2 "en".toList "[1]".toList (by decide) (by decide)]
    rfl⟩

/-! ### The text stored by `Load`, directory by directory -/

theorem localeFragments_locale (fs : FileSystem) (js : JsonLib) (dir locale : GoString)
    (files : List (GoString × GoString)) (hl : locale ≠ [])
    (h : resolveFiles fs js dir locale = Except.ok files) :
    localeFragments fs js dir locale = Except.ok [member locale (localeValue files)] := by
  match files, h with
  | [], h => simp only [localeFragments, h, hl, if_false, localeValue, member, List.append_assoc]
  | [(n, c)], h => simp only [localeFragments, h, hl, if_false, localeValue]
  | _ :: _ :: _, h =>
    simp only [localeFragments, h, hl, if_false, localeValue, member, List.append_assoc]

theorem localeFragments_root_many (fs : FileSystem) (js : JsonLib) (dir : GoString)
    (files : List (GoString × GoString)) (hmany : 2 ≤ files.length)
    (h : resolveFiles fs js dir [] = Except.ok files) :
    localeFragments fs js dir [] = Except.ok (files.map (fun fc => member fc.1 fc.2)) := by
  match files, hmany, h with
  | [], hmany, _ => simp at hmany
  | [_], hmany, _ => simp at hmany
  | _ :: _ :: _, _, h => simp only [localeFragments, h, if_true]

theorem loadLoop_locales (fs : FileSystem) (js : JsonLib) (dir : GoString)
    (value : GoString → GoString) (tail : List GoString) :
    ∀ (locales : List GoString) (contents : List GoString),
      (∀ l ∈ locales, localeFragments fs js dir l = Except.ok [member l (value l)]) →
      loadLoop fs js dir (locales ++ tail) contents =
        loadLoop fs js dir tail (contents ++ locales.map (fun l => member l (value l))) := by
  intro locales
  induction locales with
  | nil => intro contents _; simp
  | cons l rest ih =>
    intro contents h
    have hl := h l (List.mem_cons_self _ _)
    have hrest := ih (contents ++ [member l (value l)])
      (fun l' hl' => h l' (List.mem_cons_of_mem _ hl'))
    show loadLoop fs js dir (l :: (rest ++ tail)) contents = _
    simp only [loadLoop, hl, hrest, List.map_cons, List.append_assoc, List.singleton_append]

/-- When every locale directory is read without error and the root gives the
fragments `rootFragments`, `Load` stores the object whose members are one member
per locale directory, in the order of the directories, and then the fragments of
the root. -/
theorem Load_of_fragments (fs : FileSystem) (js : JsonLib) (t : JsonDriver)
    (locales : List GoString) (filesOf : GoString → List (GoString × GoString))
    (rootFragments : List GoString)
    (hsub : fs.subDirectories t.dir = Except.ok locales)
    (hlocales : ∀ l ∈ locales, l ≠ [] ∧ resolveFiles fs js t.dir l = Except.ok (filesOf l))
    (hroot : localeFragments fs js t.dir [] = Except.ok rootFragments) :
    JsonDriver.Load fs js t =
      ({ t with
          jsonData :=
            [lbrace] ++
              Join (locales.map (fun l => member l (localeValue (filesOf l))) ++ rootFragments)
                ",".toList ++ [rbrace] }, none) := by
  have hloop := loadLoop_locales fs js t.dir (fun l => localeValue (filesOf l)) [[]] locales []
    (fun l hl => localeFragments_locale fs js t.dir l (filesOf l) (hlocales l hl).1
      (hlocales l hl).2)
  simp only [JsonDriver.Load, hsub, hloop, loadLoop, hroot, List.nil_append]

theorem firstValue_map_of_mem (value : GoString → GoString) (name : GoString) :
    ∀ locales : List GoString, name ∈ locales →
      firstValue (locales.map (fun l => (l, value l))) name = some (value name) := by
  intro locales
  induction locales with
  | nil => intro h; simp at h
  | cons l rest ih =>
    intro h
    by_cases hl : l = name
    · simp [firstValue, hl]
    · rcases List.mem_cons.1 h with h' | h'
      · exact absurd h'.symm hl
      · simp only [List.map_cons, firstValue, hl, if_false]
        exact ih h'

theorem firstValue_append_of_not_mem (name : GoString) (ys : List (GoString × GoString)) :
    ∀ xs : List (GoString × GoString), name ∉ xs.map Prod.fst →
      firstValue (xs ++ ys) name = firstValue ys name := by
  intro xs
  induction xs with
  | nil => intro _; rfl
  | cons m rest ih =>
    intro h
    have hm : ¬ m.1 = name := fun hm => h (by simp [hm])
    have hrest : name ∉ rest.map Prod.fst := fun hr => h (by simp at hr ⊢; exact Or.inr hr)
    simp only [List.cons_append, firstValue, hm, if_false]
    exact ih hrest

theorem firstValue_append_of_found (name value : GoString) (ys : List (GoString × GoString)) :
    ∀ xs : List (GoString × GoString), firstValue xs name = some value →
      firstValue (xs ++ ys) name = some value := by
  intro xs
  induction xs with
  | nil => intro h; simp [firstValue] at h
  | cons m rest ih =>
    intro h
    by_cases hm : m.1 = name
    · simpa [firstValue, hm] using h
    · simp only [List.cons_append, firstValue, hm, if_false] at h ⊢
      exact ih h

theorem firstValue_of_mem_nodup (name value : GoString) :
    ∀ ms : List (GoString × GoString), (ms.map Prod.fst).Nodup → (name, value) ∈ ms →
      firstValue ms name = some value := by
  intro ms
  induction ms with
  | nil => intro _ h; simp at h
  | cons m rest ih =>
    intro hn h
    have hn' := List.nodup_cons.1 (by simpa using hn : (m.1 :: rest.map Prod.fst).Nodup)
    rcases List.mem_cons.1 h with h' | h'
    · subst h'
      simp [firstValue]
    · have hm : ¬ m.1 = name := by
        intro hm
        apply hn'.1
        rw [hm]
        exact List.mem_map.2 ⟨(name, value), h', rfl⟩
      simp only [firstValue, hm, if_false]
      exact ih hn'.2 h'

theorem mapSet_keys (k v : GoString) :
    ∀ res : List (GoString × GoString),
      (mapSet res k v).map Prod.fst =
        if k ∈ res.map Prod.fst then res.map Prod.fst else res.map Prod.fst ++ [k] := by
  intro res
  induction res with
  | nil => simp [mapSet]
  | cons e rest ih =>
    obtain ⟨k', v'⟩ := e
    by_cases hk : k' = k
    · simp [mapSet, hk]
    · have hk' : ¬ k = k' := fun h => hk h.symm
      simp only [mapSet, hk, if_false, List.map_cons, ih, List.mem_cons, hk', false_or]
      split <;> simp

theorem mapSet_keys_nodup (k v : GoString) (res : List (GoString × GoString))
    (h : (res.map Prod.fst).Nodup) : ((mapSet res k v).map Prod.fst).Nodup := by
  rw [mapSet_keys]
  split
  · exact h
  · rename_i hk
    exact List.nodup_append.2 ⟨h, List.nodup_singleton k, by
      intro a ha hb
      rw [List.mem_singleton.1 hb] at ha
      exact hk ha⟩

theorem resolveFilesLoop_nodup (js : JsonLib) :
    ∀ (files : List SourceFile) (res out : List (GoString × GoString)),
      (res.map Prod.fst).Nodup → resolveFilesLoop js files res = Except.ok out →
      (out.map Prod.fst).Nodup := by
  intro files
  induction files with
  | nil =>
    intro res out hn h
    simp only [resolveFilesLoop, Except.ok.injEq] at h
    rw [← h]
    exact hn
  | cons f rest ih =>
    intro res out hn h
    cases hf : f.read with
    | error e =>
      simp only [resolveFilesLoop, hf] at h
      cases h
    | ok c =>
      cases hv : js.Valid c with
      | false =>
        simp only [resolveFilesLoop, hf, hv, Bool.not_false, if_true] at h
        cases h
      | true =>
        simp only [resolveFilesLoop, hf, hv, Bool.not_true, Bool.false_eq_true, if_false] at h
        exact ih _ out (mapSet_keys_nodup _ _ res hn) h

theorem resolveFiles_nodup (fs : FileSystem) (js : JsonLib) (dir locale : GoString)
    (files : List (GoString × GoString))
    (h : resolveFiles fs js dir locale = Except.ok files) : (files.map Prod.fst).Nodup :=
  resolveFilesLoop_nodup js _ [] files (by simp) h

theorem splitPath_segment (key : GoString) :
    ∀ name : GoString, '.' ∉ name →
      splitPath (name ++ ".".toList ++ key) = name :: splitPath key := by
  intro name
  induction name with
  | nil => intro _; simp [splitPath]
  | cons c rest ih =>
    intro h
    have hc : ¬ c = '.' := fun hc => h (by simp [hc])
    have hrest : '.' ∉ rest := fun hr => h (List.mem_cons_of_mem _ hr)
    have := ih hrest
    simp only [List.cons_append, List.append_assoc] at this ⊢
    simp only [splitPath, hc, if_false, this]

/-! ### Plain names in the stored text and in a path -/

theorem plainChar_ne (c d : Char) (hc : plainChar c) (hd : ¬ plainChar d) : c ≠ d := by
  intro h
  rw [h] at hc
  exact hd hc

theorem plainChar_not_control (c : Char) (hc : plainChar c) : ¬ c.toNat < 32 := by
  unfold plainChar at hc
  omega

theorem plainName_cons {c : Char} {name : GoString} :
    plainName (c :: name) ↔ plainChar c ∧ plainName name := by
  simp [plainName]

/-- A plain name between quotes is read back as it is. -/
theorem scanString_plainName (rest : GoString) :
    ∀ name : GoString, plainName name →
      scanString (name ++ '"' :: rest) = some rest ∧ unescape name = name := by
  intro name
  induction name with
  | nil =>
    intro _
    constructor
    · show scanString ('"' :: rest) = some rest
      rw [scanString.eq_def]
      simp only [if_true]
    · rw [unescape.eq_def]
  | cons c name ih =>
    intro h
    obtain ⟨hc, hname⟩ := plainName_cons.1 h
    have h1 : ¬ c = '"' := plainChar_ne c '"' hc (by decide)
    have h2 : ¬ c = '\\' := plainChar_ne c '\\' hc (by decide)
    have h3 := plainChar_not_control c hc
    obtain ⟨ih1, ih2⟩ := ih hname
    constructor
    · show scanString (c :: (name ++ '"' :: rest)) = some rest
      rw [scanString.eq_def]
      simp only [h1, h2, h3, if_false]
      exact ih1
    · rw [unescape.eq_def]
      simp only [h2, if_false, ih2]

theorem plainName_no_dot (name : GoString) (h : plainName name) : '.' ∉ name :=
  fun hmem => plainChar_ne '.' '.' (h _ hmem) (by decide) rfl

theorem plainName_reads (name : GoString) (h : plainName name) : readsAsName name :=
  ⟨fun rest => (scanString_plainName rest name h).1, (scanString_plainName [] name h).2,
    fun key => splitPath_segment key name (plainName_no_dot name h)⟩

/-! ## C11: directories with several files -/

/-- C11, as stated, fails: the root holds the two files `en.json` = `{"x":"R"}` and
`fr.json` beside the locale directory `en`, whose file holds `{"x":"L"}`; `Load`
returns no error, and the aggregate gives for the name `en` the value of the
directory, not the content of the root file `en.json`, so `en.x` is `L`, not `R`. -/
theorem C11_root_file_shadowed_counterexample :
    (shadowLayout.jsonFiles "lang".toList []).length = 2 ∧
    (JsonDriver.Load shadowLayout plainLib
        { fallback := [], dir := "lang".toList, jsonData := [] }).2 = none ∧
    ¬ plainLib.Get
        (JsonDriver.Load shadowLayout plainLib
          { fallback := [], dir := "lang".toList, jsonData := [] }).1.jsonData "en".toList =
      some "\x7b\"x\":\"R\"\x7d".toList ∧
    ¬ (JsonDriver.Load shadowLayout plainLib
          { fallback := [], dir := "lang".toList, jsonData := [] }).1.Resolve plainLib
        "en".toList "x".toList = "R".toList := by
  decide

/-- C11, amended: when every locale directory is read without error, `Load` stores
the object that has one member per locale directory and then the fragments of the
root.  Names being plain (letters, digits, `_`, `-`): a locale directory `L` with
two or more files gets the member `"L":{...}` whose object has one member
`"fileName":content` per file; it is the first member named `L`, each file is the
first member of its name in it, and `L` and the file names are read back from the
text as they are and are single segments of a path.  A root with two or more files
gives one member `"fileName":content` per file, behind the members of the locale
directories; such a file is the first member of its name, so what the aggregate
gives for `fileName`, when no locale directory has that name.  With the root files
`greetings.json` and `errors.json` alone, in either order of the loop, `Load`
returns no error and `Resolve` gives `Hi` for `greetings`, `hi` and `Not found` for
`errors`, `404`, for a library that accepts the two files and finds these two paths
in the two possible texts. -/
theorem C11_multi_file_nesting (fs : FileSystem) (js : JsonLib) (t : JsonDriver)
    (locales : List GoString) (filesOf : GoString → List (GoString × GoString))
    (rootFragments : List GoString)
    (hsub : fs.subDirectories t.dir = Except.ok locales)
    (hlocales : ∀ l ∈ locales, l ≠ [] ∧ resolveFiles fs js t.dir l = Except.ok (filesOf l))
    (hroot : localeFragments fs js t.dir [] = Except.ok rootFragments) :
    JsonDriver.Load fs js t =
      ({ t with
          jsonData :=
            [lbrace] ++
              Join (locales.map (fun l => member l (localeValue (filesOf l))) ++ rootFragments)
                ",".toList ++ [rbrace] }, none) ∧
    (∀ L ∈ locales, 2 ≤ (filesOf L).length → (∀ l ∈ locales, plainName l) →
      (∀ f ∈ filesOf L, plainName f.1) →
      localeValue (filesOf L) = objectText (filesOf L) ∧
      firstValue (locales.map (fun l => (l, localeValue (filesOf l)))) L =
        some (objectText (filesOf L)) ∧
      readsAsName L ∧
      ∀ f ∈ filesOf L, firstValue (filesOf L) f.1 = some f.2 ∧ readsAsName f.1) ∧
    (∀ rootFiles : List (GoString × GoString),
      resolveFiles fs js t.dir [] = Except.ok rootFiles → 2 ≤ rootFiles.length →
      rootFragments = rootFiles.map (fun fc => member fc.1 fc.2) ∧
      (JsonDriver.Load fs js t).1.jsonData =
        objectText (locales.map (fun l => (l, localeValue (filesOf l))) ++ rootFiles) ∧
      ((∀ l ∈ locales, plainName l) → (∀ f ∈ rootFiles, plainName f.1) →
        ∀ f ∈ rootFiles, f.1 ∉ locales →
          firstValue (locales.map (fun l => (l, localeValue (filesOf l))) ++ rootFiles) f.1 =
            some f.2 ∧ readsAsName f.1)) ∧
    (∀ (t' : JsonDriver) (errorsFirst : Bool),
      js.Valid "\x7b\"hi\":\"Hi\"\x7d".toList = true →
      js.Valid "\x7b\"404\":\"Not found\"\x7d".toList = true →
      (∀ d : GoString,
        d = "\x7b\"greetings\":\x7b\"hi\":\"Hi\"\x7d,\"errors\":\x7b\"404\":\"Not found\"\x7d\x7d".toList ∨
        d = "\x7b\"errors\":\x7b\"404\":\"Not found\"\x7d,\"greetings\":\x7b\"hi\":\"Hi\"\x7d\x7d".toList →
        js.Get d ("greetings".toList ++ ".".toList ++ "hi".toList) = some "Hi".toList ∧
        js.Get d ("errors".toList ++ ".".toList ++ "404".toList) = some "Not found".toList) →
      (JsonDriver.Load (multiFileLayout errorsFirst) js t').2 = none ∧
      (JsonDriver.Load (multiFileLayout errorsFirst) js t').1.Resolve js
        "greetings".toList "hi".toList = "Hi".toList ∧
      (JsonDriver.Load (multiFileLayout errorsFirst) js t').1.Resolve js
        "errors".toList "404".toList = "Not found".toList) := by
  have hload := Load_of_fragments fs js t locales filesOf rootFragments hsub hlocales hroot
  refine ⟨hload, fun L hL hmany hplain hnames => ?_, fun rootFiles hfiles hmany => ?_,
    fun t' errorsFirst h1 h2 hget => ?_⟩
  · have hvalue : localeValue (filesOf L) = objectText (filesOf L) := by
      match hf : filesOf L, hmany with
      | [], hmany => simp at hmany
      | [_], hmany => simp at hmany
      | _ :: _ :: _, _ => rfl
    refine ⟨hvalue, ?_, plainName_reads L (hplain L hL), fun f hf => ⟨?_, ?_⟩⟩
    · rw [← hvalue]
      exact firstValue_map_of_mem (fun l => localeValue (filesOf l)) L locales hL
    · exact firstValue_of_mem_nodup f.1 f.2 (filesOf L)
        (resolveFiles_nodup fs js t.dir L (filesOf L) (hlocales L hL).2) hf
    · exact plainName_reads f.1 (hnames f hf)
  · have hfr : rootFragments = rootFiles.map (fun fc => member fc.1 fc.2) := by
      have := localeFragments_root_many fs js t.dir rootFiles hmany hfiles
      rw [hroot] at this
      exact Except.ok.inj this
    refine ⟨hfr, ?_, fun _ hnames f hf hnot => ⟨?_, plainName_reads f.1 (hnames f hf)⟩⟩
    · rw [hload, hfr]
      simp [objectText, List.map_map, Function.comp_def]
    · rw [firstValue_append_of_not_mem f.1 rootFiles _ (by simpa [List.map_map] using hnot)]
      exact firstValue_of_mem_nodup f.1 f.2 rootFiles
        (resolveFiles_nodup fs js t.dir [] rootFiles hfiles) hf
  · rw [Load_multiFile js t' errorsFirst h1 h2]
    cases errorsFirst
    · have hg := hget _ (Or.inl rfl)
      refine ⟨rfl, ?_, ?_⟩
      · simp only [JsonDriver.Resolve, JsonDriver.ResolveQueries, Bool.false_eq_true,
          if_false, hg.1]
      · simp only [JsonDriver.Resolve, JsonDriver.ResolveQueries, Bool.false_eq_true,
          if_false, hg.2]
    · have hg := hget _ (Or.inr rfl)
      refine ⟨rfl, ?_, ?_⟩
      · simp only [JsonDriver.Resolve, JsonDriver.ResolveQueries, if_true, hg.1]
      · simp only [JsonDriver.Resolve, JsonDriver.ResolveQueries, if_true, hg.2]

/-- C11, amended, at a concrete input: the root files `en.json` and `fr.json`
beside the locale directory `en`, with the library `plainLib`; the root file
`fr.json` is what the aggregate gives for `fr`. -/
theorem C11_multi_file_nesting_witness :
    (shadowLayout.subDirectories "lang".toList = Except.ok ["en".toList] ∧
      (∀ l ∈ ["en".toList], l ≠ [] ∧
        resolveFiles shadowLayout plainLib "lang".toList l =
          Except.ok [("default".toList, "\x7b\"x\":\"L\"\x7d".toList)]) ∧
      localeFragments shadowLayout plainLib "lang".toList [] =
        Except.ok ["\"en\":\x7b\"x\":\"R\"\x7d".toList, "\"fr\":\x7b\"x\":\"F\"\x7d".toList]) ∧
    firstValue
        (["en".toList].map
            (fun l => (l, localeValue [("default".toList, "\x7b\"x\":\"L\"\x7d".toList)])) ++
          [("en".toList, "\x7b\"x\":\"R\"\x7d".toList),
           ("fr".toList, "\x7b\"x\":\"F\"\x7d".toList)])
        "fr".toList = some "\x7b\"x\":\"F\"\x7d".toList :=
  have hlocales : ∀ l ∈ ["en".toList], l ≠ [] ∧
      resolveFiles shadowLayout plainLib "lang".toList l =
        Except.ok [("default".toList, "\x7b\"x\":\"L\"\x7d".toList)] := by
    intro l hl
    rw [List.mem_singleton.1 hl]
    exact ⟨by decide, rfl⟩
  ⟨⟨rfl, hlocales, rfl⟩,
    (((C11_multi_file_nesting shadowLayout plainLib
      { fallback := [], dir := "lang".toList, jsonData := [] } ["en".toList]
      (fun _ => [("default".toList, "\x7b\"x\":\"L\"\x7d".toList)])
      ["\"en\":\x7b\"x\":\"R\"\x7d".toList, "\"fr\":\x7b\"x\":\"F\"\x7d".toList]
      rfl hlocales rfl).2.2.1
      [("en".toList, "\x7b\"x\":\"R\"\x7d".toList), ("fr".toList, "\x7b\"x\":\"F\"\x7d".toList)]
      rfl (by decide)).2.2 (by decide) (by decide)
      ("fr".toList, "\x7b\"x\":\"F\"\x7d".toList) (by decide) (by decide)).1⟩

/-! ## C12: directories with one file -/

/-- C12, as stated, fails: the locale directory `en.GB` holds the one file
`{"a":"Y"}`; `Load` returns no error and stores `{"en.GB":{"a":"Y"}}`, yet
`Resolve("en.GB","a")` is not `Y`: the dot of the name splits the path, so the key
`a` of the file is not read under the locale. -/
theorem C12_dotted_locale_counterexample :
    ((localeFileLayout "en.GB".toList "\x7b\"a\":\"Y\"\x7d".toList).jsonFiles
        "lang".toList "en.GB".toList).length = 1 ∧
    (JsonDriver.Load (localeFileLayout "en.GB".toList "\x7b\"a\":\"Y\"\x7d".toList) plainLib
        { fallback := [], dir := "lang".toList, jsonData := [] }).2 = none ∧
    (JsonDriver.Load (localeFileLayout "en.GB".toList "\x7b\"a\":\"Y\"\x7d".toList) plainLib
        { fallback := [], dir := "lang".toList, jsonData := [] }).1.jsonData =
      "\x7b\"en.GB\":\x7b\"a\":\"Y\"\x7d\x7d".toList ∧
    ¬ (JsonDriver.Load (localeFileLayout "en.GB".toList "\x7b\"a\":\"Y\"\x7d".toList) plainLib
          { fallback := [], dir := "lang".toList, jsonData := [] }).1.Resolve plainLib
        "en.GB".toList "a".toList = "Y".toList := by
  decide

/-- C12, amended: when every locale directory is read without error, `Load` stores
the object that has one member per locale directory and then the fragments of the
root.  Names of the locale directories being plain (letters, digits, `_`, `-`), a
locale directory `L` with exactly one file gets the member `"L":content`: the
content of the file is the value of the first member named `L`, the name of the
file being no part of it, and `L` is read back from the text as it is and is the
first segment of the path `L.key` that `Resolve(L, key)` asks for.  The one file of
the root gives, as the one fragment of the root, its re-encoded content without the
outer braces.  With root `default.json` = `{"a":"X"}` and `en/default.json` =
`{"a":"Y"}`, `Load` stores `{"en":{"a":"Y"},"a":"X"}`, `Resolve("en","a")` is `Y`,
and with the fallback `en` `Resolve("fr","a")` is `Y`, for a library that accepts
the two files, re-encodes `{"a":"X"}` as it is, finds `en.a` and does not find
`fr.a` in that text. -/
theorem C12_single_file_unwrapped (fs : FileSystem) (js : JsonLib) (t : JsonDriver)
    (locales : List GoString) (filesOf : GoString → List (GoString × GoString))
    (rootFragments : List GoString)
    (hsub : fs.subDirectories t.dir = Except.ok locales)
    (hlocales : ∀ l ∈ locales, l ≠ [] ∧ resolveFiles fs js t.dir l = Except.ok (filesOf l))
    (hroot : localeFragments fs js t.dir [] = Except.ok rootFragments) :
    JsonDriver.Load fs js t =
      ({ t with
          jsonData :=
            [lbrace] ++
              Join (locales.map (fun l => member l (localeValue (filesOf l))) ++ rootFragments)
                ",".toList ++ [rbrace] }, none) ∧
    (∀ L ∈ locales, ∀ fileName content : GoString, filesOf L = [(fileName, content)] →
      (∀ l ∈ locales, plainName l) →
      localeValue (filesOf L) = content ∧
      firstValue (locales.map (fun l => (l, localeValue (filesOf l)))) L = some content ∧
      readsAsName L) ∧
    (∀ fileName content jsonStr : GoString,
      resolveFiles fs js t.dir [] = Except.ok [(fileName, content)] →
      js.Reencode content = Except.ok jsonStr →
      rootFragments = [TrimSuffix (TrimPrefix jsonStr [lbrace]) [rbrace]]) ∧
    (∀ (fallbackLocale dirName old : GoString),
      js.Valid "\x7b\"a\":\"Y\"\x7d".toList = true →
      js.Valid "\x7b\"a\":\"X\"\x7d".toList = true →
      js.Reencode "\x7b\"a\":\"X\"\x7d".toList = Except.ok "\x7b\"a\":\"X\"\x7d".toList →
      js.Get "\x7b\"en\":\x7b\"a\":\"Y\"\x7d,\"a\":\"X\"\x7d".toList
        ("en".toList ++ ".".toList ++ "a".toList) = some "Y".toList →
      js.Get "\x7b\"en\":\x7b\"a\":\"Y\"\x7d,\"a\":\"X\"\x7d".toList
        ("fr".toList ++ ".".toList ++ "a".toList) = none →
      JsonDriver.Load roundTripLayout js
          { fallback := fallbackLocale, dir := dirName, jsonData := old } =
        ({ fallback := fallbackLocale, dir := dirName,
           jsonData := "\x7b\"en\":\x7b\"a\":\"Y\"\x7d,\"a\":\"X\"\x7d".toList }, none) ∧
      (JsonDriver.Load roundTripLayout js
          { fallback := fallbackLocale, dir := dirName, jsonData := old }).1.Resolve js
        "en".toList "a".toList = "Y".toList ∧
      (fallbackLocale = "en".toList →
        (JsonDriver.Load roundTripLayout js
            { fallback := fallbackLocale, dir := dirName, jsonData := old }).1.Resolve js
          "fr".toList "a".toList = "Y".toList)) := by
  have hload := Load_of_fragments fs js t locales filesOf rootFragments hsub hlocales hroot
  refine ⟨hload, fun L hL fileName content hfiles hplain => ?_,
    fun fileName content jsonStr hfiles hre => ?_,
    fun fallbackLocale dirName old h1 h2 hre hen hfr => ?_⟩
  · have hvalue : localeValue (filesOf L) = content := by rw [hfiles]; rfl
    refine ⟨hvalue, ?_, plainName_reads L (hplain L hL)⟩
    rw [← hvalue]
    exact firstValue_map_of_mem (fun l => localeValue (filesOf l)) L locales hL
  · have : localeFragments fs js t.dir [] =
        Except.ok [TrimSuffix (TrimPrefix jsonStr [lbrace]) [rbrace]] := by
      simp only [localeFragments, hfiles, if_true, unwrapJson, hre]
    rw [hroot] at this
    exact Except.ok.inj this
  · rw [Load_roundTrip js _ h1 h2 hre]
    refine ⟨rfl, ?_, fun hfb => ?_⟩
    · simp only [JsonDriver.Resolve, JsonDriver.ResolveQueries, hen]
    · subst hfb
      simp only [JsonDriver.Resolve, JsonDriver.ResolveQueries, hfr, hen]

/-- C12, amended, at a concrete input: the directory of the example, the fallback
`en` and the library `plainLib`. -/
theorem C12_single_file_unwrapped_witness :
    (roundTripLayout.subDirectories "lang".toList = Except.ok ["en".toList] ∧
      (∀ l ∈ ["en".toList], l ≠ [] ∧
        resolveFiles roundTripLayout plainLib "lang".toList l =
          Except.ok [("default".toList, "\x7b\"a\":\"Y\"\x7d".toList)]) ∧
      localeFragments roundTripLayout plainLib "lang".toList [] =
        Except.ok ["\"a\":\"X\"".toList]) ∧
    firstValue
        (["en".toList].map
          (fun l => (l, localeValue [("default".toList, "\x7b\"a\":\"Y\"\x7d".toList)])))
        "en".toList = some "\x7b\"a\":\"Y\"\x7d".toList ∧
    (JsonDriver.Load roundTripLayout plainLib
        { fallback := "en".toList, dir := "lang".toList, jsonData := [] }).1.Resolve plainLib
      "fr".toList "a".toList = "Y".toList :=
  have hlocales : ∀ l ∈ ["en".toList], l ≠ [] ∧
      resolveFiles roundTripLayout plainLib "lang".toList l =
        Except.ok [("default".toList, "\x7b\"a\":\"Y\"\x7d".toList)] := by
    intro l hl
    rw [List.mem_singleton.1 hl]
    exact ⟨by decide, rfl⟩
  have h := C12_single_file_unwrapped roundTripLayout plainLib
    { fallback := "en".toList, dir := "lang".toList, jsonData := [] } ["en".toList]
    (fun _ => [("default".toList, "\x7b\"a\":\"Y\"\x7d".toList)])
    ["\"a\":\"X\"".toList] rfl hlocales rfl
  ⟨⟨rfl, hlocales, rfl⟩,
    (h.2.1 "en".toList (by decide) "default".toList "\x7b\"a\":\"Y\"\x7d".toList rfl
      (by decide)).2.1,
    (h.2.2.2 "en".toList "lang".toList [] (by decide) (by decide) rfl (by decide)
      (by decide)).2.2 rfl⟩

end translator
